import Mathlib

/-!
Verification of the canonicalization-and-load pipeline of the quant-test
repository (src/load_daily_snapshot.py, src/load_history_from_stock_csv.py,
src/qrp_atlas/contracts/conventions.py, src/qrp_atlas/contracts/schema.py,
src/qrp_atlas/pipeline/duckdb_store.py).

Python strings are embedded as `List Char`; float arithmetic on prices is
embedded as exact rational arithmetic (`ℚ`); pandas data frames become lists
of records.  Fallible steps return `Except`.
-/

set_option maxHeartbeats 1000000

/-- Python whitespace test used by `str.strip` (embedded via `Char.isWhitespace`). -/
def isWS (c : Char) : Bool := c.isWhitespace

/-- Python `str.strip()`: drop whitespace from both ends. -/
def pstrip (l : List Char) : List Char := (l.dropWhile isWS).rdropWhile isWS

/-- Python `str.zfill(w)`: left-pad with `'0'` up to width `w`, keeping a
leading sign character in place.  Strings already at least `w` long are
returned unchanged. -/
def zfill (w : Nat) (l : List Char) : List Char :=
  if w ≤ l.length then l
  else
    match l with
    | [] => List.replicate w '0'
    | c :: rest =>
      if c = '+' ∨ c = '-' then c :: (List.replicate (w - l.length) '0' ++ rest)
      else List.replicate (w - l.length) '0' ++ l

/-- The `".SH"` exchange suffix. -/
def sfxSH : List Char := ['.', 'S', 'H']

/-- The `".SZ"` exchange suffix. -/
def sfxSZ : List Char := ['.', 'S', 'Z']

/-- The `".BJ"` exchange suffix. -/
def sfxBJ : List Char := ['.', 'B', 'J']

/-- `ticker.endswith((".SH", ".SZ", ".BJ"))` from
`load_history_from_stock_csv.normalize_ticker`. -/
def endsWithSuffix (l : List Char) : Bool :=
  sfxSH.isSuffixOf l || sfxSZ.isSuffixOf l || sfxBJ.isSuffixOf l

/-- Python `str.startswith((p1, p2, ...))`: true iff some listed prefix matches. -/
def startsWithAny (l : List Char) (ps : List (List Char)) : Bool :=
  ps.any (fun p => p.isPrefixOf l)

/-- Shanghai prefixes `("600", "601", "603", "605", "688", "689")` used by both
loaders' `normalize_ticker`. -/
def shPrefixes : List (List Char) :=
  [['6','0','0'], ['6','0','1'], ['6','0','3'], ['6','0','5'],
   ['6','8','8'], ['6','8','9']]

/-- Shenzhen prefixes `("000", "001", "002", "003", "300", "301")` of
`load_daily_snapshot.normalize_ticker`. -/
def szPrefixesDaily : List (List Char) :=
  [['0','0','0'], ['0','0','1'], ['0','0','2'], ['0','0','3'],
   ['3','0','0'], ['3','0','1']]

/-- Shenzhen prefixes `("000", "001", "002", "003", "300", "301", "302")` of
`load_history_from_stock_csv.normalize_ticker`. -/
def szPrefixesHist : List (List Char) :=
  [['0','0','0'], ['0','0','1'], ['0','0','2'], ['0','0','3'],
   ['3','0','0'], ['3','0','1'], ['3','0','2']]

/-- Beijing prefixes `("4", "8", "920")` used by both loaders. -/
def bjPrefixes : List (List Char) :=
  [['4'], ['8'], ['9','2','0']]

/-- `load_daily_snapshot.normalize_ticker`: `str(ticker).zfill(6)` followed by
prefix classification; unclassifiable codes are returned without a suffix. -/
def daily_normalize_ticker (t : List Char) : List Char :=
  let code := zfill 6 t
  if startsWithAny code shPrefixes then code ++ sfxSH
  else if startsWithAny code szPrefixesDaily then code ++ sfxSZ
  else if startsWithAny code bjPrefixes then code ++ sfxBJ
  else code

/-- `load_history_from_stock_csv.normalize_ticker`: strip, return unchanged when
already suffixed, else `zfill(6)` and prefix classification. -/
def hist_normalize_ticker (t : List Char) : List Char :=
  let s := pstrip t
  if endsWithSuffix s then s
  else
    let code := zfill 6 s
    if startsWithAny code shPrefixes then code ++ sfxSH
    else if startsWithAny code szPrefixesHist then code ++ sfxSZ
    else if startsWithAny code bjPrefixes then code ++ sfxBJ
    else code

/-- `conventions.format_ticker`: strip, then `zfill(6)` only when the stripped
string is shorter than `TICKER_LENGTH = 6`. -/
def format_ticker (t : List Char) : List Char :=
  let s := pstrip t
  if s.length < 6 then zfill 6 s else s

/-- Substring test: does `p` occur contiguously inside `l`? -/
def isInfixL (p : List Char) : List Char → Bool
  | [] => p.isPrefixOf []
  | a :: t => p.isPrefixOf (a :: t) || isInfixL p t

/-- `df["name"].str.contains("ST", case=False)`: case-insensitive substring
test for `"ST"`. -/
def containsST (name : List Char) : Bool :=
  isInfixL ['s','t'] (name.map Char.toLower)

/-- Round to the nearest integer, ties to the even integer; this is the
rounding used by `pandas.Series.round` (IEEE round-half-even, exact here
because all values are rationals). -/
def roundHalfEven (x : ℚ) : ℤ :=
  let n := x.floor
  let f := x - n
  if f < 1/2 then n
  else if 1/2 < f then n + 1
  else if n % 2 = 0 then n else n + 1

/-- `.round(2)`: round to two decimal places. -/
def round2 (x : ℚ) : ℚ := (roundHalfEven (x * 100) : ℚ) / 100

/-- Main-board prefixes `("600", "601", "603", "605", "000", "001", "002",
"003")` used for the special-treatment limit reduction in both loaders'
`clean_file`. -/
def mainBoardPrefixes : List (List Char) :=
  [['6','0','0'], ['6','0','1'], ['6','0','3'], ['6','0','5'],
   ['0','0','0'], ['0','0','1'], ['0','0','2'], ['0','0','3']]

/-- ChiNext/STAR prefixes `("300", "301", "688", "689")` of the 20% rule in
`load_daily_snapshot.clean_file`. -/
def limit20PrefixesDaily : List (List Char) :=
  [['3','0','0'], ['3','0','1'], ['6','8','8'], ['6','8','9']]

/-- ChiNext/STAR prefixes `("300", "301", "302", "688", "689")` of the 20% rule
in `load_history_from_stock_csv.clean_file`. -/
def limit20PrefixesHist : List (List Char) :=
  [['3','0','0'], ['3','0','1'], ['3','0','2'], ['6','8','8'], ['6','8','9']]

/-- Beijing prefixes `("4", "8", "920")` of the 30% rule in both loaders. -/
def limit30Prefixes : List (List Char) :=
  [['4'], ['8'], ['9','2','0']]

/-- The `limit_pct` column computation of `load_daily_snapshot.clean_file`
(lines 250-258): start at 10, overwrite with 20 on ChiNext/STAR prefixes, with
30 on Beijing prefixes, and finally with 5 on special-treatment main-board
rows.  `ticker` is the already-normalized (suffixed) ticker. -/
def daily_limit_pct (ticker : List Char) (is_st : Bool) : ℚ :=
  let v : ℚ := 10
  let v : ℚ := if startsWithAny ticker limit20PrefixesDaily then 20 else v
  let v : ℚ := if startsWithAny ticker limit30Prefixes then 30 else v
  if is_st && startsWithAny ticker mainBoardPrefixes then 5 else v

/-- The `limit_pct` column computation of
`load_history_from_stock_csv.clean_file` (lines 173-180). -/
def hist_limit_pct (ticker : List Char) (is_st : Bool) : ℚ :=
  let v : ℚ := 10
  let v : ℚ := if startsWithAny ticker limit20PrefixesHist then 20 else v
  let v : ℚ := if startsWithAny ticker limit30Prefixes then 30 else v
  if is_st && startsWithAny ticker mainBoardPrefixes then 5 else v

/-- A raw row of a per-day snapshot file after the `COLUMN_MAP` rename in
`load_daily_snapshot.clean_file` and numeric coercion: `code` is the raw
`代码` column, the numeric columns carry rational values (the embedding
restricts to files whose numeric cells parse and that carry a `trade_date`
column). -/
structure RawRowDaily where
  trade_date : List Char
  code : List Char
  name : List Char
  open_ : ℚ
  high : ℚ
  low : ℚ
  close : ℚ
  pre_close : ℚ
  pct_change : ℚ
  volume : ℚ
  amount : ℚ
  turnover : ℚ
  market_cap : ℚ
  float_cap : ℚ
deriving DecidableEq

/-- A canonical row of the `daily_market_snapshot` batch: the
`EXPECTED_COLUMNS` of both loaders. -/
structure Row where
  trade_date : List Char
  ticker : List Char
  name : List Char
  open_ : ℚ
  high : ℚ
  low : ℚ
  close : ℚ
  pre_close : ℚ
  pct_change : ℚ
  volume : ℚ
  amount : ℚ
  turnover : ℚ
  market_cap : ℚ
  float_cap : ℚ
  is_st : Bool
  is_limit_up : Bool
  is_limit_down : Bool
deriving DecidableEq

/-- The limit-up boundary price computed for a daily raw row:
`(pre_close * (1 + limit_pct / 100)).round(2)`. -/
def daily_limit_up_price (r : RawRowDaily) : ℚ :=
  round2 (r.pre_close *
    (1 + daily_limit_pct (daily_normalize_ticker r.code) (containsST r.name) / 100))

/-- The limit-down boundary price computed for a daily raw row:
`(pre_close * (1 - limit_pct / 100)).round(2)`. -/
def daily_limit_down_price (r : RawRowDaily) : ℚ :=
  round2 (r.pre_close *
    (1 - daily_limit_pct (daily_normalize_ticker r.code) (containsST r.name) / 100))

/-- The per-row part of `load_daily_snapshot.clean_file`: normalize the ticker,
derive the special-treatment flag from the name, and derive the two limit-hit
flags with the 0.001 tolerance (`close >= limit_up_price - 0.001`,
`close <= limit_down_price + 0.001`). -/
def daily_clean_row (r : RawRowDaily) : Row :=
  let ticker := daily_normalize_ticker r.code
  let st := containsST r.name
  let pct := daily_limit_pct ticker st
  let lup := round2 (r.pre_close * (1 + pct / 100))
  let ldn := round2 (r.pre_close * (1 - pct / 100))
  { trade_date := r.trade_date, ticker := ticker, name := r.name,
    open_ := r.open_, high := r.high, low := r.low, close := r.close,
    pre_close := r.pre_close, pct_change := r.pct_change, volume := r.volume,
    amount := r.amount, turnover := r.turnover, market_cap := r.market_cap,
    float_cap := r.float_cap,
    is_st := st,
    is_limit_up := decide (r.close ≥ lup - 1/1000),
    is_limit_down := decide (r.close ≤ ldn + 1/1000) }

/-- A raw row of a per-instrument history file after numeric coercion
(`load_history_from_stock_csv.clean_file`; the embedding restricts to files
that carry a `name` column with string values and already-canonical ISO
`trade_date` strings, so the identity date re-parse is dropped). -/
structure RawRowHist where
  trade_date : List Char
  ticker : List Char
  name : List Char
  open_ : ℚ
  high : ℚ
  low : ℚ
  close : ℚ
  pre_close : ℚ
  pct_change : ℚ
  volume : ℚ
  amount : ℚ
  turnover : ℚ
  market_cap : ℚ
  float_cap : ℚ
deriving DecidableEq

/-- The per-row part of `load_history_from_stock_csv.clean_file`. -/
def hist_clean_row (r : RawRowHist) : Row :=
  let ticker := hist_normalize_ticker r.ticker
  let st := containsST r.name
  let pct := hist_limit_pct ticker st
  let lup := round2 (r.pre_close * (1 + pct / 100))
  let ldn := round2 (r.pre_close * (1 - pct / 100))
  { trade_date := r.trade_date, ticker := ticker, name := r.name,
    open_ := r.open_, high := r.high, low := r.low, close := r.close,
    pre_close := r.pre_close, pct_change := r.pct_change, volume := r.volume,
    amount := r.amount, turnover := r.turnover, market_cap := r.market_cap,
    float_cap := r.float_cap,
    is_st := st,
    is_limit_up := decide (r.close ≥ lup - 1/1000),
    is_limit_down := decide (r.close ≤ ldn + 1/1000) }

/-- Project a canonical row back to the raw columns a re-read of the written
history batch would present to `clean_file` (the three derived boolean columns
are recomputed by the cleaner, so they do not appear among the inputs). -/
def rowToRawHist (r : Row) : RawRowHist :=
  { trade_date := r.trade_date, ticker := r.ticker, name := r.name,
    open_ := r.open_, high := r.high, low := r.low, close := r.close,
    pre_close := r.pre_close, pct_change := r.pct_change, volume := r.volume,
    amount := r.amount, turnover := r.turnover, market_cap := r.market_cap,
    float_cap := r.float_cap }

/-- Same projection for the daily loader: the written `ticker` column is what a
re-read feeds into the `代码` position. -/
def rowToRawDaily (r : Row) : RawRowDaily :=
  { trade_date := r.trade_date, code := r.ticker, name := r.name,
    open_ := r.open_, high := r.high, low := r.low, close := r.close,
    pre_close := r.pre_close, pct_change := r.pct_change, volume := r.volume,
    amount := r.amount, turnover := r.turnover, market_cap := r.market_cap,
    float_cap := r.float_cap }

/-- Strict lexicographic comparison of char lists (the order pandas uses on
string columns in `sort_values`). -/
def lexLtb : List Char → List Char → Bool
  | [], [] => false
  | [], _ :: _ => true
  | _ :: _, [] => false
  | a :: as, b :: bs => if a < b then true else if b < a then false else lexLtb as bs

/-- Non-strict lexicographic comparison of char lists. -/
def lexLeb : List Char → List Char → Bool
  | [], _ => true
  | _ :: _, [] => false
  | a :: as, b :: bs => if a < b then true else if b < a then false else lexLeb as bs

/-- `df.sort_values(["trade_date", "ticker"])` comparison: by date, then by
ticker. -/
def rowLeb (x y : Row) : Bool :=
  lexLtb x.trade_date y.trade_date ||
    (decide (x.trade_date = y.trade_date) && lexLeb x.ticker y.ticker)

/-- The sort relation as a `Prop`. -/
def rowLe (x y : Row) : Prop := rowLeb x y = true

instance : DecidableRel rowLe := fun x y => inferInstanceAs (Decidable (rowLeb x y = true))

/-- `df.sort_values(["trade_date", "ticker"])` on a batch. -/
def sortRows (l : List Row) : List Row := List.insertionSort rowLe l

/-- The `(trade_date, ticker)` primary key of a canonical row. -/
def rowKey (r : Row) : List Char × List Char := (r.trade_date, r.ticker)

/-- The named failures raised by the cleaning pipelines. -/
inductive CleanErr where
  | emptyFile
  | duplicateKey
  | invalidTicker
  | multipleDates
  | dateMismatch (fileDate contentDate : List Char)
deriving DecidableEq

/-- `validate_pk`: `df.duplicated(subset=["trade_date", "ticker"]).any()`
raises; equivalently, the key list is duplicate-free or the batch is
rejected. -/
def validate_pk (rows : List Row) : Except CleanErr Unit :=
  if (rows.map rowKey).Nodup then .ok () else .error .duplicateKey

/-- `load_daily_snapshot.validate_ticker`: every ticker must match the regex
`\.(SH|SZ|BJ)$`, i.e. end with one of the three suffixes. -/
def daily_validate_ticker (rows : List Row) : Except CleanErr Unit :=
  if rows.all (fun r => endsWithSuffix r.ticker) then .ok () else .error .invalidTicker

/-- `load_history_from_stock_csv.validate_ticker`: the stripped, upper-cased
ticker must fully match `\d{6}\.(SH|SZ|BJ)`. -/
def hist_valid_ticker (t : List Char) : Bool :=
  let u := (pstrip t).map Char.toUpper
  (u.length == 9) && (u.take 6).all Char.isDigit &&
    (decide (u.drop 6 = sfxSH) || decide (u.drop 6 = sfxSZ) || decide (u.drop 6 = sfxBJ))

/-- Batch form of the history ticker validation. -/
def hist_validate_ticker (rows : List Row) : Except CleanErr Unit :=
  if rows.all (fun r => hist_valid_ticker r.ticker) then .ok () else .error .invalidTicker

/-- The filename tail `_Astock.csv` of the per-day snapshot files. -/
def astockSuffix : List Char := ['_','A','s','t','o','c','k','.','c','s','v']

/-- Does a 10-character list match `\d{4}-\d{2}-\d{2}`? -/
def isDate10 : List Char → Bool
  | [a,b,c,d,e,f,g,h,i,j] =>
    a.isDigit && b.isDigit && c.isDigit && d.isDigit && (e == '-') &&
    f.isDigit && g.isDigit && (h == '-') && i.isDigit && j.isDigit
  | _ => false

/-- `parse_trade_date_from_name`: the regex search
`(\d{4}-\d{2}-\d{2})_Astock\.csv$` — a match exists iff the name ends with
`_Astock.csv` preceded by a date-shaped group, which is returned. -/
def parse_trade_date_from_name (name : List Char) : Option (List Char) :=
  if name.length < 21 then none
  else
    let tail21 := name.drop (name.length - 21)
    let d10 := tail21.take 10
    if decide (tail21.drop 10 = astockSuffix) && isDate10 d10 then some d10 else none

/-- `validate_trade_date`: when the filename encodes a date, the batch must
contain exactly one distinct `trade_date`, equal to it. -/
def validate_trade_date (rows : List Row) (fname : List Char) : Except CleanErr Unit :=
  match parse_trade_date_from_name fname with
  | none => .ok ()
  | some d =>
    match (rows.map (fun r => r.trade_date)).dedup with
    | [u] => if u = d then .ok () else .error (.dateMismatch d u)
    | _ => .error .multipleDates

/-- A raw per-day snapshot file: its name and its rows. -/
structure RawFileDaily where
  fname : List Char
  rows : List RawRowDaily
deriving DecidableEq

/-- `load_daily_snapshot.clean_file` (restricted to files readable into
`RawRowDaily` rows): empty check, per-row cleaning, sort, then the validators
in source order (schema, pk, ticker, trade-date); the schema check holds by
construction of `Row`. -/
def daily_clean_file (f : RawFileDaily) : Except CleanErr (List Row) :=
  if f.rows.isEmpty then .error .emptyFile
  else
    let sorted := sortRows (f.rows.map daily_clean_row)
    match validate_pk sorted with
    | .error e => .error e
    | .ok _ =>
      match daily_validate_ticker sorted with
      | .error e => .error e
      | .ok _ =>
        match validate_trade_date sorted f.fname with
        | .error e => .error e
        | .ok _ => .ok sorted

/-- `load_history_from_stock_csv.clean_file` (same restriction): empty check,
per-row cleaning, sort, then target-schema, pk and ticker validation. -/
def hist_clean_file (rows : List RawRowHist) : Except CleanErr (List Row) :=
  if rows.isEmpty then .error .emptyFile
  else
    let sorted := sortRows (rows.map hist_clean_row)
    match validate_pk sorted with
    | .error e => .error e
    | .ok _ =>
      match hist_validate_ticker sorted with
      | .error e => .error e
      | .ok _ => .ok sorted

/-- Is a key present in a stored batch? -/
def keyMem (k : List Char × List Char) (l : List Row) : Bool :=
  l.any (fun b => decide (rowKey b = k))

/-- `save_daily_market_snapshot(df, replace=True)`: delete every stored row
whose `(trade_date, ticker)` occurs in the batch, then insert the batch. -/
def save_snapshot_replace (store batch : List Row) : List Row :=
  store.filter (fun s => ! keyMem (rowKey s) batch) ++ batch

/-- One row of the `ON CONFLICT (trade_date, ticker) DO UPDATE` upsert: replace
the stored row with the same key, or append. -/
def upsert_row (store : List Row) (r : Row) : List Row :=
  if keyMem (rowKey r) store then
    store.map (fun s => if rowKey s = rowKey r then r else s)
  else store ++ [r]

/-- `UPSERT_SQL` applied to a whole batch, row by row. -/
def upsert_batch (store : List Row) (batch : List Row) : List Row :=
  batch.foldl upsert_row store

/-- The body of `load_files`' transaction: clean each file in order and upsert
its rows; the first failure aborts. -/
def daily_process_files : List RawFileDaily → List Row → Except CleanErr (List Row)
  | [], store => .ok store
  | f :: fs, store =>
    match daily_clean_file f with
    | .error e => .error e
    | .ok rows => daily_process_files fs (upsert_batch store rows)

/-- `load_files`: `BEGIN TRANSACTION` / per-file clean-and-upsert / `COMMIT`,
with `ROLLBACK` restoring the pre-transaction store on any failure. -/
def daily_load_files (store : List Row) (files : List RawFileDaily) : List Row :=
  match daily_process_files files store with
  | .ok s => s
  | .error _ => store

/-- `schema.ColumnSpec`. -/
structure ColumnSpec where
  name : String
  dtype : String
  nullable : Bool := true
deriving DecidableEq

/-- `schema.TableSchema`. -/
structure TableSchema where
  name : String
  columns : List ColumnSpec
  primary_key : List String
deriving DecidableEq

/-- `TableSchema.duckdb_create_sql`: one indented definition per column, the
`PRIMARY KEY` qualifier inlined on the key column only when the primary key
has exactly one column, a `DEFAULT CURRENT_TIMESTAMP` on `created_at`, and a
trailing table-level `PRIMARY KEY (...)` constraint when the key has more than
one column. -/
def duckdb_create_sql (t : TableSchema) : String :=
  let col_defs := t.columns.map (fun c =>
    let d := "  " ++ c.name ++ " " ++ c.dtype
    let d := if c.name ∈ t.primary_key ∧ t.primary_key.length = 1
      then d ++ " PRIMARY KEY" else d
    if c.name = "created_at" then d ++ " DEFAULT CURRENT_TIMESTAMP" else d)
  let col_defs := if 1 < t.primary_key.length
    then col_defs ++ ["  PRIMARY KEY (" ++ String.intercalate ", " t.primary_key ++ ")"]
    else col_defs
  "CREATE TABLE IF NOT EXISTS " ++ t.name ++ " (\n" ++
    String.intercalate ",\n" col_defs ++ "\n);"

/-- Modelled from the spec: the inline-primary-key rendering — "single-column
primary keys are inlined" — every key column gets the inline qualifier and no
table-level constraint is appended. -/
def create_sql_inline_pk (t : TableSchema) : String :=
  let col_defs := t.columns.map (fun c =>
    let d := "  " ++ c.name ++ " " ++ c.dtype
    let d := if c.name ∈ t.primary_key then d ++ " PRIMARY KEY" else d
    if c.name = "created_at" then d ++ " DEFAULT CURRENT_TIMESTAMP" else d)
  "CREATE TABLE IF NOT EXISTS " ++ t.name ++ " (\n" ++
    String.intercalate ",\n" col_defs ++ "\n);"

/-- Modelled from the spec: the table-constraint rendering — "multi-column
primary keys are emitted as a trailing table constraint" — no column gets the
inline qualifier and the constraint is appended after the columns. -/
def create_sql_table_pk (t : TableSchema) : String :=
  let col_defs := t.columns.map (fun c =>
    let d := "  " ++ c.name ++ " " ++ c.dtype
    if c.name = "created_at" then d ++ " DEFAULT CURRENT_TIMESTAMP" else d)
  let col_defs := col_defs ++
    ["  PRIMARY KEY (" ++ String.intercalate ", " t.primary_key ++ ")"]
  "CREATE TABLE IF NOT EXISTS " ++ t.name ++ " (\n" ++
    String.intercalate ",\n" col_defs ++ "\n);"

/-- `schema.DAILY_MARKET_SNAPSHOT`. -/
def DAILY_MARKET_SNAPSHOT : TableSchema :=
  { name := "daily_market_snapshot",
    columns :=
      [ { name := "trade_date", dtype := "DATE", nullable := false },
        { name := "ticker", dtype := "VARCHAR", nullable := false },
        { name := "name", dtype := "VARCHAR" },
        { name := "open", dtype := "DOUBLE" },
        { name := "high", dtype := "DOUBLE" },
        { name := "low", dtype := "DOUBLE" },
        { name := "close", dtype := "DOUBLE" },
        { name := "pct_change", dtype := "DOUBLE" },
        { name := "pre_close", dtype := "DOUBLE" },
        { name := "volume", dtype := "BIGINT" },
        { name := "amount", dtype := "DOUBLE" },
        { name := "turnover", dtype := "DOUBLE" },
        { name := "market_cap", dtype := "DOUBLE" },
        { name := "float_cap", dtype := "DOUBLE" },
        { name := "is_st", dtype := "BOOLEAN" },
        { name := "is_limit_up", dtype := "BOOLEAN" },
        { name := "is_limit_down", dtype := "BOOLEAN" },
        { name := "created_at", dtype := "TIMESTAMP" } ],
    primary_key := ["trade_date", "ticker"] }

/-- `schema.MARKET_PHASE`. -/
def MARKET_PHASE : TableSchema :=
  { name := "market_phase",
    columns :=
      [ { name := "trade_date", dtype := "DATE", nullable := false },
        { name := "phase", dtype := "VARCHAR" },
        { name := "M1_core", dtype := "BOOLEAN" },
        { name := "M2_front", dtype := "BOOLEAN" },
        { name := "M3_identifiable", dtype := "BOOLEAN" },
        { name := "V_triggered", dtype := "BOOLEAN" },
        { name := "notes", dtype := "VARCHAR" },
        { name := "created_at", dtype := "TIMESTAMP" } ],
    primary_key := ["trade_date"] }

/-- `schema.TRADE_EXECUTION`. -/
def TRADE_EXECUTION : TableSchema :=
  { name := "trade_execution",
    columns :=
      [ { name := "trade_id", dtype := "VARCHAR", nullable := false },
        { name := "ticker", dtype := "VARCHAR" },
        { name := "entry_date", dtype := "DATE" },
        { name := "entry_price", dtype := "DOUBLE" },
        { name := "path_type", dtype := "VARCHAR" },
        { name := "half_sell_trigger", dtype := "DOUBLE" },
        { name := "half_sell_date", dtype := "DATE" },
        { name := "half_sell_price", dtype := "DOUBLE" },
        { name := "exit_date", dtype := "DATE" },
        { name := "exit_price", dtype := "DOUBLE" },
        { name := "position_pct", dtype := "DOUBLE" },
        { name := "notes", dtype := "VARCHAR" } ],
    primary_key := ["trade_id"] }

/-- `conventions.calc_limit_up_pct`: depends on the special-treatment flag
only (5 for ST, else 10); not used by either loader to derive prices. -/
def calc_limit_up_pct (is_st : Bool) : ℚ :=
  if is_st then 5 else 10

/-- Is an error one of the two date-consistency failures of
`validate_trade_date`? -/
def isDateErr : CleanErr → Bool
  | .multipleDates => true
  | .dateMismatch _ _ => true
  | _ => false

/-- A concrete daily raw row: main-board non-ST ticker `600000`, previous
close 10 (so the computed limit-up price is 11), and a session close of
11.02 — 0.02 above the limit-up price. -/
def c1Row : RawRowDaily :=
  { trade_date := ['2','0','2','4','-','0','1','-','0','2'],
    code := ['6','0','0','0','0','0'],
    name := ['A'],
    open_ := 10, high := 11, low := 10, close := 1102/100,
    pre_close := 10, pct_change := 0, volume := 0, amount := 0,
    turnover := 0, market_cap := 0, float_cap := 0 }

/-- A daily raw row whose close sits exactly at the computed limit-up
price 11. -/
def c1WitnessRow : RawRowDaily :=
  { trade_date := ['2','0','2','4','-','0','1','-','0','2'],
    code := ['6','0','0','0','0','0'],
    name := ['A'],
    open_ := 10, high := 11, low := 10, close := 11,
    pre_close := 10, pct_change := 0, volume := 0, amount := 0,
    turnover := 0, market_cap := 0, float_cap := 0 }

/-- A concrete canonical (already cleaned) row. -/
def c3Row : Row :=
  { trade_date := ['2','0','2','4','-','0','1','-','0','2'],
    ticker := ['6','0','0','0','0','0','.','S','H'],
    name := ['A'], open_ := 1, high := 1, low := 1, close := 1, pre_close := 1,
    pct_change := 0, volume := 0, amount := 0, turnover := 0, market_cap := 0,
    float_cap := 0, is_st := false, is_limit_up := false, is_limit_down := false }

/-- The filename `2024-01-02_Astock.csv`. -/
def fname2Jan : List Char :=
  ['2','0','2','4','-','0','1','-','0','2','_','A','s','t','o','c','k','.','c','s','v']

/-- A duplicate-key file: the same raw row twice. -/
def c6File : RawFileDaily := { fname := fname2Jan, rows := [c1WitnessRow, c1WitnessRow] }

/-- A well-formed one-row file. -/
def c5GoodFile : RawFileDaily := { fname := fname2Jan, rows := [c1WitnessRow] }

/-- A malformed (empty) file. -/
def c5BadFile : RawFileDaily := { fname := fname2Jan, rows := [] }

/-- A raw row dated 2024-01-03. -/
def c7Row : RawRowDaily :=
  { trade_date := ['2','0','2','4','-','0','1','-','0','3'],
    code := ['6','0','0','0','0','0'],
    name := ['A'],
    open_ := 10, high := 11, low := 10, close := 11,
    pre_close := 10, pct_change := 0, volume := 0, amount := 0,
    turnover := 0, market_cap := 0, float_cap := 0 }

/-- A mislabeled file: named for 2024-01-02 but carrying a row dated
2024-01-03. -/
def c7File : RawFileDaily := { fname := fname2Jan, rows := [c7Row] }

/-- A raw history row with a bare six-digit ticker. -/
def c4Raw : RawRowHist :=
  { trade_date := ['2','0','2','4','-','0','1','-','0','2'],
    ticker := ['6','0','0','0','0','0'],
    name := ['A'],
    open_ := 10, high := 11, low := 10, close := 11,
    pre_close := 10, pct_change := 0, volume := 0, amount := 0,
    turnover := 0, market_cap := 0, float_cap := 0 }

/-- The canonical row the history `clean_file` produces from `c4Raw`. -/
def c4Out : Row :=
  { trade_date := ['2','0','2','4','-','0','1','-','0','2'],
    ticker := ['6','0','0','0','0','0','.','S','H'],
    name := ['A'],
    open_ := 10, high := 11, low := 10, close := 11,
    pre_close := 10, pct_change := 0, volume := 0, amount := 0,
    turnover := 0, market_cap := 0, float_cap := 0,
    is_st := false, is_limit_up := true, is_limit_down := false }

lemma startsWithAny_iff {l : List Char} {ps : List (List Char)} :
    startsWithAny l ps = true ↔ ∃ p ∈ ps, p.isPrefixOf l = true := by
  simp [startsWithAny]

lemma p20d_not_main {t : List Char} (h : startsWithAny t limit20PrefixesDaily = true) :
    startsWithAny t mainBoardPrefixes = false := by
  match t with
  | [] => simp [startsWithAny, limit20PrefixesDaily, List.isPrefixOf] at h
  | [a] => simp [startsWithAny, limit20PrefixesDaily, List.isPrefixOf] at h
  | [a, b] => simp [startsWithAny, limit20PrefixesDaily, List.isPrefixOf] at h
  | a :: b :: c :: r =>
    simp only [startsWithAny, limit20PrefixesDaily, mainBoardPrefixes, List.any_cons,
      List.any_nil, List.isPrefixOf, Bool.or_eq_true, Bool.and_eq_true, beq_iff_eq,
      Bool.or_eq_false_iff, Bool.and_eq_false_iff, Bool.or_false] at h ⊢
    rcases h with ⟨h1, h2, h3, -⟩ | ⟨h1, h2, h3, -⟩ | ⟨h1, h2, h3, -⟩ | ⟨h1, h2, h3, -⟩ <;>
      subst h1 <;> subst h2 <;> subst h3 <;> decide

lemma p20h_not_main {t : List Char} (h : startsWithAny t limit20PrefixesHist = true) :
    startsWithAny t mainBoardPrefixes = false := by
  match t with
  | [] => simp [startsWithAny, limit20PrefixesHist, List.isPrefixOf] at h
  | [a] => simp [startsWithAny, limit20PrefixesHist, List.isPrefixOf] at h
  | [a, b] => simp [startsWithAny, limit20PrefixesHist, List.isPrefixOf] at h
  | a :: b :: c :: r =>
    simp only [startsWithAny, limit20PrefixesHist, mainBoardPrefixes, List.any_cons,
      List.any_nil, List.isPrefixOf, Bool.or_eq_true, Bool.and_eq_true, beq_iff_eq,
      Bool.or_eq_false_iff, Bool.and_eq_false_iff, Bool.or_false] at h ⊢
    rcases h with ⟨h1, h2, h3, -⟩ | ⟨h1, h2, h3, -⟩ | ⟨h1, h2, h3, -⟩ | ⟨h1, h2, h3, -⟩ |
      ⟨h1, h2, h3, -⟩ <;>
      subst h1 <;> subst h2 <;> subst h3 <;> decide

lemma p30_not_main {t : List Char} (h : startsWithAny t limit30Prefixes = true) :
    startsWithAny t mainBoardPrefixes = false := by
  match t with
  | [] => simp [startsWithAny, limit30Prefixes, List.isPrefixOf] at h
  | [a] => simp [startsWithAny, mainBoardPrefixes, List.isPrefixOf]
  | [a, b] => simp [startsWithAny, mainBoardPrefixes, List.isPrefixOf]
  | a :: b :: c :: r =>
    simp only [startsWithAny, limit30Prefixes, mainBoardPrefixes, List.any_cons,
      List.any_nil, List.isPrefixOf, Bool.or_eq_true, Bool.and_eq_true, beq_iff_eq,
      Bool.or_eq_false_iff, Bool.and_eq_false_iff, Bool.or_false] at h ⊢
    rcases h with ⟨h1, -⟩ | ⟨h1, -⟩ | ⟨h1, h2, h3, -⟩ <;>
      first
        | (subst h1; subst h2; subst h3; decide)
        | (subst h1; simp)

lemma p20d_not_p30 {t : List Char} (h : startsWithAny t limit20PrefixesDaily = true) :
    startsWithAny t limit30Prefixes = false := by
  match t with
  | [] => simp [startsWithAny, limit20PrefixesDaily, List.isPrefixOf] at h
  | [a] => simp [startsWithAny, limit20PrefixesDaily, List.isPrefixOf] at h
  | [a, b] => simp [startsWithAny, limit20PrefixesDaily, List.isPrefixOf] at h
  | a :: b :: c :: r =>
    simp only [startsWithAny, limit20PrefixesDaily, limit30Prefixes, List.any_cons,
      List.any_nil, List.isPrefixOf, Bool.or_eq_true, Bool.and_eq_true, beq_iff_eq,
      Bool.or_eq_false_iff, Bool.and_eq_false_iff, Bool.or_false] at h ⊢
    rcases h with ⟨h1, h2, h3, -⟩ | ⟨h1, h2, h3, -⟩ | ⟨h1, h2, h3, -⟩ | ⟨h1, h2, h3, -⟩ <;>
      subst h1 <;> subst h2 <;> subst h3 <;> decide

lemma p20h_not_p30 {t : List Char} (h : startsWithAny t limit20PrefixesHist = true) :
    startsWithAny t limit30Prefixes = false := by
  match t with
  | [] => simp [startsWithAny, limit20PrefixesHist, List.isPrefixOf] at h
  | [a] => simp [startsWithAny, limit20PrefixesHist, List.isPrefixOf] at h
  | [a, b] => simp [startsWithAny, limit20PrefixesHist, List.isPrefixOf] at h
  | a :: b :: c :: r =>
    simp only [startsWithAny, limit20PrefixesHist, limit30Prefixes, List.any_cons,
      List.any_nil, List.isPrefixOf, Bool.or_eq_true, Bool.and_eq_true, beq_iff_eq,
      Bool.or_eq_false_iff, Bool.and_eq_false_iff, Bool.or_false] at h ⊢
    rcases h with ⟨h1, h2, h3, -⟩ | ⟨h1, h2, h3, -⟩ | ⟨h1, h2, h3, -⟩ | ⟨h1, h2, h3, -⟩ |
      ⟨h1, h2, h3, -⟩ <;>
      subst h1 <;> subst h2 <;> subst h3 <;> decide

/-- C2: for every ticker and special-treatment flag, the daily loader's limit
percentage is 5 exactly when the ticker sits on one of the two main boards and
the special-treatment flag is set; it is 20 exactly on the ChiNext/STAR
prefixes and 30 exactly on the Beijing prefixes, in both cases regardless of
the special-treatment flag; and it is 10 in every remaining case — so
`limit_pct` is a function of the exchange board together with the
special-treatment flag. -/
theorem daily_limit_pct_rule (t : List Char) (st : Bool) :
    (daily_limit_pct t st = 5 ↔
      (st = true ∧ startsWithAny t mainBoardPrefixes = true)) ∧
    (daily_limit_pct t st = 20 ↔ startsWithAny t limit20PrefixesDaily = true) ∧
    (daily_limit_pct t st = 30 ↔ startsWithAny t limit30Prefixes = true) ∧
    (¬(st = true ∧ startsWithAny t mainBoardPrefixes = true) →
      startsWithAny t limit20PrefixesDaily = false →
      startsWithAny t limit30Prefixes = false →
      daily_limit_pct t st = 10) := by
  by_cases hs : (st && startsWithAny t mainBoardPrefixes) = true
  · have h5 : daily_limit_pct t st = 5 := by simp [daily_limit_pct, hs]
    rw [Bool.and_eq_true] at hs
    obtain ⟨hst, hm⟩ := hs
    refine ⟨?_, ?_, ?_, ?_⟩
    · rw [h5]; simp [hst, hm]
    · rw [h5]
      constructor
      · intro h; exact absurd h (by norm_num)
      · intro hp; have h20 := p20d_not_main hp; rw [h20] at hm; exact absurd hm (by simp)
    · rw [h5]
      constructor
      · intro h; exact absurd h (by norm_num)
      · intro hp; have h30 := p30_not_main hp; rw [h30] at hm; exact absurd hm (by simp)
    · intro hcon _ _; exact absurd ⟨hst, hm⟩ hcon
  · have hv : daily_limit_pct t st =
        (if startsWithAny t limit30Prefixes = true then 30
         else if startsWithAny t limit20PrefixesDaily = true then 20 else (10 : ℚ)) := by
      simp only [daily_limit_pct]
      rw [if_neg hs]
    by_cases hB : startsWithAny t limit30Prefixes = true
    · have h30 : daily_limit_pct t st = 30 := by rw [hv, if_pos hB]
      refine ⟨?_, ?_, ?_, ?_⟩
      · rw [h30]
        constructor
        · intro h; exact absurd h (by norm_num)
        · rintro ⟨-, hm⟩; exact absurd (p30_not_main hB) (by simp [hm])
      · rw [h30]
        constructor
        · intro h; exact absurd h (by norm_num)
        · intro hp; have hc := p20d_not_p30 hp; rw [hc] at hB; exact absurd hB (by simp)
      · rw [h30]; simp [hB]
      · intro _ _ h30f; rw [h30f] at hB; exact absurd hB (by simp)
    · by_cases hA : startsWithAny t limit20PrefixesDaily = true
      · have h20 : daily_limit_pct t st = 20 := by rw [hv, if_neg hB, if_pos hA]
        refine ⟨?_, ?_, ?_, ?_⟩
        · rw [h20]
          constructor
          · intro h; exact absurd h (by norm_num)
          · rintro ⟨-, hm⟩
            have hc := p20d_not_main hA; rw [hc] at hm; exact absurd hm (by simp)
        · rw [h20]; simp [hA]
        · rw [h20]
          constructor
          · intro h; exact absurd h (by norm_num)
          · intro hp; exact absurd hp hB
        · intro _ hA0 _; rw [hA0] at hA; exact absurd hA (by simp)
      · have h10 : daily_limit_pct t st = 10 := by rw [hv, if_neg hB, if_neg hA]
        refine ⟨?_, ?_, ?_, ?_⟩
        · rw [h10]
          constructor
          · intro h; exact absurd h (by norm_num)
          · rintro ⟨hst, hm⟩
            exact absurd (by rw [Bool.and_eq_true]; exact ⟨hst, hm⟩ :
              (st && startsWithAny t mainBoardPrefixes) = true) hs
        · rw [h10]
          constructor
          · intro h; exact absurd h (by norm_num)
          · intro hp; exact absurd hp hA
        · rw [h10]
          constructor
          · intro h; exact absurd h (by norm_num)
          · intro hp; exact absurd hp hB
        · intro _ _ _; exact h10

/-- Witness for C2 at the unclassifiable ticker `"900000"` with `is_st = false`:
all hypotheses of the residual-10% clause hold and the theorem yields 10. -/
theorem daily_limit_pct_rule_witness :
    ¬((false : Bool) = true ∧
        startsWithAny ['9','0','0','0','0','0'] mainBoardPrefixes = true) ∧
    startsWithAny ['9','0','0','0','0','0'] limit20PrefixesDaily = false ∧
    startsWithAny ['9','0','0','0','0','0'] limit30Prefixes = false ∧
    daily_limit_pct ['9','0','0','0','0','0'] false = 10 :=
  ⟨by simp, by decide, by decide,
    (daily_limit_pct_rule ['9','0','0','0','0','0'] false).2.2.2
      (by simp) (by decide) (by decide)⟩

/-- C1 (amended): on every cleaned daily row the limit-up flag is the
one-sided test `close ≥ limit_up_price − 0.001`; hence a close exactly at the
limit-up price is flagged, a close 0.002 above it is flagged, and — contrary
to the original claim — a close 0.02 above it is flagged as well, since the
comparison has no upper bound. -/
theorem daily_limit_up_flag_boundary (r : RawRowDaily) :
    ((daily_clean_row r).is_limit_up = true ↔
      r.close ≥ daily_limit_up_price r - 1/1000) ∧
    (r.close = daily_limit_up_price r → (daily_clean_row r).is_limit_up = true) ∧
    (r.close = daily_limit_up_price r + 2/1000 →
      (daily_clean_row r).is_limit_up = true) ∧
    (r.close = daily_limit_up_price r + 2/100 →
      (daily_clean_row r).is_limit_up = true) := by
  have hb : (daily_clean_row r).is_limit_up =
      decide (r.close ≥ daily_limit_up_price r - 1/1000) := by
    simp only [daily_clean_row, daily_limit_up_price]
  refine ⟨?_, ?_, ?_, ?_⟩
  · rw [hb]; exact decide_eq_true_iff
  · intro h; rw [hb, decide_eq_true_iff, h]; linarith
  · intro h; rw [hb, decide_eq_true_iff, h]; linarith
  · intro h; rw [hb, decide_eq_true_iff, h]; linarith

/-- C1 counterexample: the claim says a close 0.02 above the limit-up price is
flagged `false`, but `clean_file` flags this row `true`. -/
theorem c1_counterexample :
    c1Row.close = daily_limit_up_price c1Row + 2/100 ∧
    (daily_clean_row c1Row).is_limit_up = true := by
  have hpct : daily_limit_pct (daily_normalize_ticker c1Row.code)
      (containsST c1Row.name) = 10 := by decide
  have hlup : daily_limit_up_price c1Row = 11 := by
    simp only [daily_limit_up_price, hpct]
    norm_num [c1Row, round2, roundHalfEven, Rat.floor_def']
  constructor
  · rw [hlup]; norm_num [c1Row]
  · simp only [daily_clean_row, hpct]
    rw [decide_eq_true_iff]
    norm_num [c1Row, round2, roundHalfEven, Rat.floor_def']

/-- Witness for C1 (amended): the exact-boundary clause holds at a concrete
row with previous close 10 and close 11. -/
theorem daily_limit_up_flag_boundary_witness :
    c1WitnessRow.close = daily_limit_up_price c1WitnessRow ∧
    (daily_clean_row c1WitnessRow).is_limit_up = true := by
  have hpct : daily_limit_pct (daily_normalize_ticker c1WitnessRow.code)
      (containsST c1WitnessRow.name) = 10 := by decide
  have hc : c1WitnessRow.close = daily_limit_up_price c1WitnessRow := by
    simp only [daily_limit_up_price, hpct]
    norm_num [c1WitnessRow, round2, roundHalfEven, Rat.floor_def']
  exact ⟨hc, (daily_limit_up_flag_boundary c1WitnessRow).2.1 hc⟩

lemma zfill_of_le {w : Nat} {l : List Char} (h : w ≤ l.length) : zfill w l = l := by
  simp only [zfill]
  rw [if_pos h]

lemma zfill_length (w : Nat) (l : List Char) : (zfill w l).length = max w l.length := by
  by_cases h : w ≤ l.length
  · rw [zfill_of_le h]; omega
  · push_neg at h
    cases l with
    | nil =>
      simp only [zfill]
      rw [if_neg (by simp; omega)]
      simp
    | cons c rest =>
      simp only [zfill]
      rw [if_neg (by omega)]
      by_cases hc : c = '+' ∨ c = '-'
      · rw [if_pos hc]; simp [List.length_replicate]; omega
      · rw [if_neg hc]; simp [List.length_replicate]; omega

/-- C8 counterexample: `format_ticker` returns inputs of length ≥ 6 unchanged,
so a 7-digit input yields a 7-character result, not a 6-digit one. -/
theorem c8_counterexample :
    format_ticker ['1','2','3','4','5','6','7'] = ['1','2','3','4','5','6','7'] ∧
    (format_ticker ['1','2','3','4','5','6','7']).length ≠ 6 := by decide

/-- C8 (amended): after stripping surrounding whitespace, inputs of length at
most 6 are brought to exactly 6 characters; inputs shorter than 6 without a
leading sign are left-padded with zeros; inputs of length at least 6 are
returned as the stripped string, unchanged. -/
theorem format_ticker_pads (t : List Char) :
    ((pstrip t).length ≤ 6 → (format_ticker t).length = 6) ∧
    (6 ≤ (pstrip t).length → format_ticker t = pstrip t) ∧
    ((pstrip t).length < 6 → ¬(pstrip t).headD '0' ∈ (['+','-'] : List Char) →
      format_ticker t = List.replicate (6 - (pstrip t).length) '0' ++ pstrip t) := by
  refine ⟨?_, ?_, ?_⟩
  · intro h
    by_cases hl : (pstrip t).length < 6
    · simp only [format_ticker]
      rw [if_pos hl, zfill_length]
      omega
    · simp only [format_ticker]
      rw [if_neg hl]
      omega
  · intro h
    simp only [format_ticker]
    rw [if_neg (by omega)]
  · intro h hsign
    simp only [format_ticker]
    rw [if_pos h]
    cases hs : pstrip t with
    | nil => simp [zfill]
    | cons c rest =>
      rw [hs] at h hsign
      simp only [List.headD_cons, List.mem_cons, List.mem_singleton] at hsign
      push_neg at hsign
      simp only [zfill]
      rw [if_neg (by omega), if_neg (by tauto)]

/-- Witness for C8 (amended): the padding clause applied to the input `"1"`. -/
theorem format_ticker_pads_witness :
    (pstrip ['1']).length ≤ 6 ∧ (format_ticker ['1']).length = 6 :=
  ⟨by decide, (format_ticker_pads ['1']).1 (by decide)⟩

lemma dropWhile_head_not {α : Type} (p : α → Bool) {l : List α} {a : α} {t : List α}
    (h : l.dropWhile p = a :: t) : p a = false := by
  have hd := List.dropWhile_idempotent p l
  rw [h] at hd
  by_cases hw : p a = true
  · rw [List.dropWhile_cons_of_pos hw] at hd
    have hlen := congrArg List.length hd
    have hle := (List.dropWhile_suffix p (l := t)).length_le
    simp at hlen
    omega
  · simpa using hw

lemma pstrip_dropWhile (l : List Char) : (pstrip l).dropWhile isWS = pstrip l := by
  rcases h : pstrip l with _ | ⟨a, t⟩
  · simp
  · have ha : isWS a = false := by
      have hd : (l.dropWhile isWS).dropWhile isWS = l.dropWhile isWS :=
        List.dropWhile_idempotent isWS l
      have hpre : pstrip l <+: l.dropWhile isWS := List.rdropWhile_prefix isWS _
      rw [h] at hpre
      obtain ⟨rest, hrest⟩ := hpre
      have hcons : l.dropWhile isWS = a :: (t ++ rest) := by
        rw [← hrest]; simp
      rw [hcons] at hd
      exact dropWhile_head_not isWS hd
    rw [List.dropWhile_cons_of_neg (by simp [ha])]

lemma pstrip_rdropWhile (l : List Char) : (pstrip l).rdropWhile isWS = pstrip l :=
  List.rdropWhile_idempotent isWS _

lemma pstrip_idem (l : List Char) : pstrip (pstrip l) = pstrip l := by
  show ((pstrip l).dropWhile isWS).rdropWhile isWS = pstrip l
  rw [pstrip_dropWhile]
  exact pstrip_rdropWhile l

lemma pstrip_head_not {l : List Char} {a : Char} {t : List Char}
    (h : pstrip l = a :: t) : isWS a = false := by
  have hd := pstrip_dropWhile l
  rw [h] at hd
  exact dropWhile_head_not isWS hd

lemma pstrip_last_not {l : List Char} {init : List Char} {b : Char}
    (h : pstrip l = init ++ [b]) : isWS b = false := by
  have hr := pstrip_rdropWhile l
  rw [h] at hr
  by_cases hw : isWS b = true
  · rw [List.rdropWhile_concat_pos _ _ _ hw] at hr
    have hlen := congrArg List.length hr
    have hle := (List.rdropWhile_prefix isWS init).length_le
    simp at hlen
    omega
  · simpa using hw

lemma pstrip_of_head_last {l : List Char} {a : Char} {t : List Char}
    (hl : l = a :: t) (ha : isWS a = false) {init : List Char} {b : Char}
    (hlast : l = init ++ [b]) (hb : isWS b = false) : pstrip l = l := by
  unfold pstrip
  rw [hl, List.dropWhile_cons_of_neg (by simp [ha]), ← hl, hlast,
    List.rdropWhile_concat_neg _ _ _ (by simp [hb])]

lemma suffix_of_suffix_append {u v w : List Char} (hw : w <:+ u ++ v)
    (hlen : w.length ≤ v.length) : w <:+ v := by
  rcases List.suffix_or_suffix_of_suffix hw (List.suffix_append u v) with h | h
  · exact h
  · have hvw : v = w := h.eq_of_length_le hlen
    rw [← hvw]

lemma suffix3_zfill6 {s : List Char} {a b c : Char} (ha : a ≠ '0')
    (h : [a, b, c] <:+ zfill 6 s) : [a, b, c] <:+ s := by
  by_cases hlen : 6 ≤ s.length
  · rwa [zfill_of_le hlen] at h
  push_neg at hlen
  rcases s with _ | ⟨x, rest⟩
  · exfalso
    have hmem : a ∈ List.replicate 6 '0' := by
      have hsub := h.subset
      simp only [zfill] at hsub
      rw [if_neg (by simp)] at hsub
      exact hsub (by simp)
    exact ha (List.eq_of_mem_replicate hmem)
  · simp only [zfill] at h
    rw [if_neg (by omega)] at h
    by_cases hx : x = '+' ∨ x = '-'
    · rw [if_pos hx] at h
      by_cases hr : 3 ≤ rest.length
      · have heq : x :: (List.replicate (6 - (x :: rest).length) '0' ++ rest)
            = (x :: List.replicate (6 - (x :: rest).length) '0') ++ rest := by simp
        rw [heq] at h
        have h' : [a, b, c] <:+ rest :=
          suffix_of_suffix_append h (by simpa using hr)
        exact h'.trans (List.suffix_cons x rest)
      · exfalso
        push_neg at hr
        obtain ⟨u, hu⟩ := h
        have hlu : u.length = 3 := by
          have hl := congrArg List.length hu
          simp at hl
          omega
        have h1 : (u ++ [a, b, c])[3]? = some a := by
          rw [List.getElem?_append_right (by omega)]
          simp [hlu]
        rw [hu] at h1
        have hcount : (2 : Nat) < 6 - (x :: rest).length := by
          simp only [List.length_cons]
          omega
        have hrep : (2 : Nat) < (List.replicate (6 - (x :: rest).length) '0').length := by
          simpa using hcount
        have h2 : (x :: (List.replicate (6 - (x :: rest).length) '0' ++ rest))[3]? =
            some '0' := by
          rw [show (3 : Nat) = 2 + 1 from rfl, List.getElem?_cons_succ,
            List.getElem?_append_left hrep]
          exact List.getElem?_replicate_of_lt hcount
        rw [h1] at h2
        have : a = '0' := by injection h2
        exact ha this
    · rw [if_neg hx] at h
      by_cases hr : 3 ≤ (x :: rest).length
      · exact suffix_of_suffix_append h (by simpa using hr)
      · exfalso
        push_neg at hr
        obtain ⟨u, hu⟩ := h
        have hxr : (x :: rest).length = rest.length + 1 := by simp
        have hlu : u.length = 3 := by
          have hl := congrArg List.length hu
          simp at hl
          omega
        have h1 : (u ++ [a, b, c])[3]? = some a := by
          rw [List.getElem?_append_right (by omega)]
          simp [hlu]
        rw [hu] at h1
        have hcount : (3 : Nat) < 6 - (x :: rest).length := by
          simp only [List.length_cons] at hr ⊢
          omega
        have hrep : (3 : Nat) < (List.replicate (6 - (x :: rest).length) '0').length := by
          simpa using hcount
        have h2 : (List.replicate (6 - (x :: rest).length) '0' ++ (x :: rest))[3]? =
            some '0' := by
          rw [List.getElem?_append_left hrep]
          exact List.getElem?_replicate_of_lt hcount
        rw [h1] at h2
        have : a = '0' := by injection h2
        exact ha this

lemma endsWithSuffix_eq_true_iff {l : List Char} :
    endsWithSuffix l = true ↔ (sfxSH <:+ l ∨ sfxSZ <:+ l ∨ sfxBJ <:+ l) := by
  unfold endsWithSuffix
  simp [List.isSuffixOf_iff_suffix, or_assoc]

lemma not_ends_zfill6 {s : List Char} (h : endsWithSuffix s = false) :
    endsWithSuffix (zfill 6 s) = false := by
  rw [← Bool.not_eq_true] at h ⊢
  rw [endsWithSuffix_eq_true_iff] at h ⊢
  intro hz
  apply h
  rcases hz with hz | hz | hz
  · exact Or.inl (suffix3_zfill6 (by decide) (show ['.','S','H'] <:+ zfill 6 s from hz))
  · exact Or.inr (Or.inl (suffix3_zfill6 (by decide) (show ['.','S','Z'] <:+ zfill 6 s from hz)))
  · exact Or.inr (Or.inr (suffix3_zfill6 (by decide) (show ['.','B','J'] <:+ zfill 6 s from hz)))

lemma ends_append {code sfx : List Char}
    (h : sfx = sfxSH ∨ sfx = sfxSZ ∨ sfx = sfxBJ) :
    endsWithSuffix (code ++ sfx) = true := by
  unfold endsWithSuffix
  rcases h with rfl | rfl | rfl <;>
    simp [List.isSuffixOf_iff_suffix, List.suffix_append]

lemma startsWithAny_shape {code : List Char} {ps : List (List Char)}
    (h : startsWithAny code ps = true)
    (hp : ∀ p ∈ ps, p ≠ [] ∧ isWS (p.headD ' ') = false) :
    ∃ x rest, code = x :: rest ∧ isWS x = false := by
  rw [startsWithAny_iff] at h
  obtain ⟨p, hmem, hpre⟩ := h
  obtain ⟨hne, hws⟩ := hp p hmem
  cases p with
  | nil => exact absurd rfl hne
  | cons q qs =>
    cases code with
    | nil => simp [List.isPrefixOf] at hpre
    | cons x rest =>
      simp only [List.isPrefixOf, Bool.and_eq_true, beq_iff_eq] at hpre
      obtain ⟨rfl, -⟩ := hpre
      exact ⟨q, rest, rfl, by simpa using hws⟩

lemma pstrip_last_shape {t : List Char} {init : List Char} {b : Char} :
    pstrip t = init ++ [b] → isWS b = false := pstrip_last_not

lemma zfill6_head_shape {s : List Char} (hs : ∀ a u, s = a :: u → isWS a = false) :
    ∃ a u, zfill 6 s = a :: u ∧ isWS a = false := by
  by_cases h6 : 6 ≤ s.length
  · rw [zfill_of_le h6]
    rcases s with _ | ⟨a, u⟩
    · simp at h6
    · exact ⟨a, u, rfl, hs a u rfl⟩
  · push_neg at h6
    rcases s with _ | ⟨x, rest⟩
    · refine ⟨'0', List.replicate 5 '0', ?_, by decide⟩
      decide
    · simp only [zfill]
      rw [if_neg (show ¬ 6 ≤ (x :: rest).length from by omega)]
      by_cases hx : x = '+' ∨ x = '-'
      · rw [if_pos hx]
        refine ⟨x, _, rfl, ?_⟩
        rcases hx with rfl | rfl <;> decide
      · rw [if_neg hx]
        have hk : 6 - (x :: rest).length ≠ 0 := by
          simp only [List.length_cons] at h6 ⊢
          omega
        obtain ⟨m, hm⟩ := Nat.exists_eq_succ_of_ne_zero hk
        rw [hm, List.replicate_succ]
        exact ⟨'0', _, rfl, by decide⟩

lemma zfill6_last_shape {s : List Char}
    (hs : ∀ init b, s = init ++ [b] → isWS b = false) :
    ∃ init b, zfill 6 s = init ++ [b] ∧ isWS b = false := by
  by_cases h6 : 6 ≤ s.length
  · rw [zfill_of_le h6]
    rcases List.eq_nil_or_concat s with hnil | ⟨init, b, hcat⟩
    · rw [hnil] at h6; simp at h6
    · rw [List.concat_eq_append] at hcat
      exact ⟨init, b, hcat, hs init b hcat⟩
  · push_neg at h6
    rcases s with _ | ⟨x, rest⟩
    · refine ⟨List.replicate 5 '0', '0', ?_, by decide⟩
      decide
    · simp only [zfill]
      rw [if_neg (show ¬ 6 ≤ (x :: rest).length from by omega)]
      by_cases hx : x = '+' ∨ x = '-'
      · rw [if_pos hx]
        rcases List.eq_nil_or_concat rest with rfl | ⟨init, b, hcat⟩
        · have hk : 6 - (x :: ([] : List Char)).length ≠ 0 := by simp
          obtain ⟨m, hm⟩ := Nat.exists_eq_succ_of_ne_zero hk
          rw [hm, List.replicate_succ']
          refine ⟨x :: List.replicate m '0', '0', ?_, by decide⟩
          simp
        · rw [List.concat_eq_append] at hcat
          subst hcat
          refine ⟨x :: (List.replicate (6 - (x :: (init ++ [b])).length) '0' ++ init), b,
            ?_, hs (x :: init) b (by simp)⟩
          simp
      · rw [if_neg hx]
        rcases List.eq_nil_or_concat rest with rfl | ⟨init, b, hcat⟩
        · exact ⟨List.replicate (6 - (x :: ([] : List Char)).length) '0', x, rfl,
            hs [] x rfl⟩
        · rw [List.concat_eq_append] at hcat
          subst hcat
          refine ⟨List.replicate (6 - (x :: (init ++ [b])).length) '0' ++ (x :: init), b,
            ?_, hs (x :: init) b (by simp)⟩
          simp

lemma pstrip_zfill_pstrip (t : List Char) :
    pstrip (zfill 6 (pstrip t)) = zfill 6 (pstrip t) := by
  obtain ⟨a, u, hau, ha⟩ :=
    zfill6_head_shape (s := pstrip t) (fun a u h => pstrip_head_not h)
  obtain ⟨init, b, hib, hb⟩ :=
    zfill6_last_shape (s := pstrip t) (fun i b h => pstrip_last_not h)
  exact pstrip_of_head_last hau ha hib hb

lemma pstrip_suffix_sfx {t sfx : List Char}
    (hsfx : sfx = sfxSH ∨ sfx = sfxSZ ∨ sfx = sfxBJ) (h : sfx <:+ t) :
    ∃ v, pstrip t = v ++ sfx := by
  obtain ⟨u, hu⟩ := h
  have hdw : ∃ v, t.dropWhile isWS = v ++ sfx := by
    rw [← hu, List.dropWhile_append]
    by_cases he : (u.dropWhile isWS).isEmpty
    · rw [if_pos he]
      refine ⟨[], ?_⟩
      rw [List.nil_append]
      rcases hsfx with rfl | rfl | rfl <;> decide
    · rw [if_neg he]
      exact ⟨u.dropWhile isWS, rfl⟩
  obtain ⟨v, hv⟩ := hdw
  unfold pstrip
  rw [hv]
  rcases hsfx with rfl | rfl | rfl
  · refine ⟨v, ?_⟩
    have heq : v ++ sfxSH = (v ++ ['.', 'S']) ++ ['H'] := by simp [sfxSH]
    rw [heq, List.rdropWhile_concat_neg _ _ _ (by decide), ← heq]
  · refine ⟨v, ?_⟩
    have heq : v ++ sfxSZ = (v ++ ['.', 'S']) ++ ['Z'] := by simp [sfxSZ]
    rw [heq, List.rdropWhile_concat_neg _ _ _ (by decide), ← heq]
  · refine ⟨v, ?_⟩
    have heq : v ++ sfxBJ = (v ++ ['.', 'B']) ++ ['J'] := by simp [sfxBJ]
    rw [heq, List.rdropWhile_concat_neg _ _ _ (by decide), ← heq]

lemma ends_pstrip {t : List Char} (h : endsWithSuffix t = true) :
    endsWithSuffix (pstrip t) = true := by
  rw [endsWithSuffix_eq_true_iff] at h
  rcases h with h | h | h
  · obtain ⟨v, hv⟩ := pstrip_suffix_sfx (Or.inl rfl) h
    rw [hv]; exact ends_append (Or.inl rfl)
  · obtain ⟨v, hv⟩ := pstrip_suffix_sfx (Or.inr (Or.inl rfl)) h
    rw [hv]; exact ends_append (Or.inr (Or.inl rfl))
  · obtain ⟨v, hv⟩ := pstrip_suffix_sfx (Or.inr (Or.inr rfl)) h
    rw [hv]; exact ends_append (Or.inr (Or.inr rfl))

lemma hist_normalize_of_ends_pstrip {t : List Char}
    (h : endsWithSuffix (pstrip t) = true) : hist_normalize_ticker t = pstrip t := by
  simp only [hist_normalize_ticker]
  rw [if_pos h]

lemma pstrip_append_sfx_of_prefix {t sfx : List Char}
    (hsfx : sfx = sfxSH ∨ sfx = sfxSZ ∨ sfx = sfxBJ)
    {ps : List (List Char)}
    (hp : ∀ p ∈ ps, p ≠ [] ∧ isWS (p.headD ' ') = false)
    (hpre : startsWithAny (zfill 6 (pstrip t)) ps = true) :
    pstrip (zfill 6 (pstrip t) ++ sfx) = zfill 6 (pstrip t) ++ sfx := by
  obtain ⟨x, rest, hxr, hxws⟩ := startsWithAny_shape hpre hp
  rcases hsfx with rfl | rfl | rfl
  · exact pstrip_of_head_last
      (show zfill 6 (pstrip t) ++ sfxSH = x :: (rest ++ sfxSH) from by rw [hxr]; simp)
      hxws
      (show _ = (zfill 6 (pstrip t) ++ ['.', 'S']) ++ ['H'] from by simp [sfxSH])
      (by decide)
  · exact pstrip_of_head_last
      (show zfill 6 (pstrip t) ++ sfxSZ = x :: (rest ++ sfxSZ) from by rw [hxr]; simp)
      hxws
      (show _ = (zfill 6 (pstrip t) ++ ['.', 'S']) ++ ['Z'] from by simp [sfxSZ])
      (by decide)
  · exact pstrip_of_head_last
      (show zfill 6 (pstrip t) ++ sfxBJ = x :: (rest ++ sfxBJ) from by rw [hxr]; simp)
      hxws
      (show _ = (zfill 6 (pstrip t) ++ ['.', 'B']) ++ ['J'] from by simp [sfxBJ])
      (by decide)

lemma hist_normalize_idem (t : List Char) :
    hist_normalize_ticker (hist_normalize_ticker t) = hist_normalize_ticker t := by
  by_cases he : endsWithSuffix (pstrip t) = true
  · rw [hist_normalize_of_ends_pstrip he]
    have h2 : hist_normalize_ticker (pstrip t) = pstrip (pstrip t) :=
      hist_normalize_of_ends_pstrip (by rw [pstrip_idem]; exact he)
    rw [h2, pstrip_idem]
  · have hne : endsWithSuffix (pstrip t) = false := by
      rw [← Bool.not_eq_true]; exact he
    by_cases hsh : startsWithAny (zfill 6 (pstrip t)) shPrefixes = true
    · have h1 : hist_normalize_ticker t = zfill 6 (pstrip t) ++ sfxSH := by
        simp only [hist_normalize_ticker]
        rw [if_neg he, if_pos hsh]
      have hstrip := pstrip_append_sfx_of_prefix (Or.inl rfl) (by decide) hsh
      have h2 : hist_normalize_ticker (zfill 6 (pstrip t) ++ sfxSH) =
          pstrip (zfill 6 (pstrip t) ++ sfxSH) :=
        hist_normalize_of_ends_pstrip (by rw [hstrip]; exact ends_append (Or.inl rfl))
      rw [h1, h2, hstrip]
    · by_cases hsz : startsWithAny (zfill 6 (pstrip t)) szPrefixesHist = true
      · have h1 : hist_normalize_ticker t = zfill 6 (pstrip t) ++ sfxSZ := by
          simp only [hist_normalize_ticker]
          rw [if_neg he, if_neg hsh, if_pos hsz]
        have hstrip := pstrip_append_sfx_of_prefix (Or.inr (Or.inl rfl)) (by decide) hsz
        have h2 : hist_normalize_ticker (zfill 6 (pstrip t) ++ sfxSZ) =
            pstrip (zfill 6 (pstrip t) ++ sfxSZ) :=
          hist_normalize_of_ends_pstrip
            (by rw [hstrip]; exact ends_append (Or.inr (Or.inl rfl)))
        rw [h1, h2, hstrip]
      · by_cases hbj : startsWithAny (zfill 6 (pstrip t)) bjPrefixes = true
        · have h1 : hist_normalize_ticker t = zfill 6 (pstrip t) ++ sfxBJ := by
            simp only [hist_normalize_ticker]
            rw [if_neg he, if_neg hsh, if_neg hsz, if_pos hbj]
          have hstrip := pstrip_append_sfx_of_prefix (Or.inr (Or.inr rfl)) (by decide) hbj
          have h2 : hist_normalize_ticker (zfill 6 (pstrip t) ++ sfxBJ) =
              pstrip (zfill 6 (pstrip t) ++ sfxBJ) :=
            hist_normalize_of_ends_pstrip
              (by rw [hstrip]; exact ends_append (Or.inr (Or.inr rfl)))
          rw [h1, h2, hstrip]
        · have h1 : hist_normalize_ticker t = zfill 6 (pstrip t) := by
            simp only [hist_normalize_ticker]
            rw [if_neg he, if_neg hsh, if_neg hsz, if_neg hbj]
          rw [h1]
          have hstrip := pstrip_zfill_pstrip t
          have hends := not_ends_zfill6 hne
          have hlen : 6 ≤ (zfill 6 (pstrip t)).length := by
            rw [zfill_length]; omega
          simp only [hist_normalize_ticker]
          rw [hstrip, if_neg (by simp [hends]), zfill_of_le hlen,
            if_neg hsh, if_neg hsz, if_neg hbj]

/-- C10 (amended): the history loader's `normalize_ticker` returns an
already-suffixed input stripped of surrounding whitespace but otherwise
unchanged (so already-stripped suffixed inputs are returned exactly as given),
and applying `normalize_ticker` twice equals applying it once, for every
input. -/
theorem hist_normalize_ticker_suffix_guard (t : List Char) :
    (endsWithSuffix t = true → hist_normalize_ticker t = pstrip t) ∧
    hist_normalize_ticker (hist_normalize_ticker t) = hist_normalize_ticker t := by
  refine ⟨?_, hist_normalize_idem t⟩
  intro h
  exact hist_normalize_of_ends_pstrip (ends_pstrip h)

/-- C10 counterexample: the input `" 600000.SH"` ends with `.SH` but is not
returned unchanged — the leading space is stripped. -/
theorem c10_counterexample :
    endsWithSuffix (' ' :: ['6','0','0','0','0','0','.','S','H']) = true ∧
    hist_normalize_ticker (' ' :: ['6','0','0','0','0','0','.','S','H']) =
      ['6','0','0','0','0','0','.','S','H'] ∧
    hist_normalize_ticker (' ' :: ['6','0','0','0','0','0','.','S','H']) ≠
      (' ' :: ['6','0','0','0','0','0','.','S','H']) := by decide

/-- Witness for C10 (amended) at the already-stripped input `"600000.SH"`. -/
theorem hist_normalize_ticker_suffix_guard_witness :
    endsWithSuffix ['6','0','0','0','0','0','.','S','H'] = true ∧
    hist_normalize_ticker ['6','0','0','0','0','0','.','S','H'] =
      pstrip ['6','0','0','0','0','0','.','S','H'] :=
  ⟨by decide, (hist_normalize_ticker_suffix_guard
    ['6','0','0','0','0','0','.','S','H']).1 (by decide)⟩

lemma keyMem_iff {k : List Char × List Char} {l : List Row} :
    keyMem k l = true ↔ ∃ b ∈ l, rowKey b = k := by
  simp [keyMem]

lemma save_replace_idem (store batch : List Row) :
    save_snapshot_replace (save_snapshot_replace store batch) batch =
      save_snapshot_replace store batch := by
  unfold save_snapshot_replace
  rw [List.filter_append]
  have h1 : batch.filter (fun s => ! keyMem (rowKey s) batch) = [] := by
    rw [List.filter_eq_nil_iff]
    intro a ha
    simp only [Bool.not_eq_true', Bool.not_eq_false]
    exact keyMem_iff.mpr ⟨a, ha, rfl⟩
  rw [h1, List.append_nil]
  congr 1
  rw [List.filter_filter]
  apply List.filter_congr
  intro a _
  rw [Bool.and_self]

lemma save_replace_nodup {store batch : List Row}
    (hs : (store.map rowKey).Nodup) (hb : (batch.map rowKey).Nodup) :
    ((save_snapshot_replace store batch).map rowKey).Nodup := by
  unfold save_snapshot_replace
  rw [List.map_append, List.nodup_append]
  refine ⟨((List.filter_sublist store).map rowKey).nodup hs, hb, ?_⟩
  intro k hk1 hk2
  obtain ⟨s, hs1, rfl⟩ := List.mem_map.mp hk1
  have hpred := List.of_mem_filter hs1
  simp only [Bool.not_eq_true'] at hpred
  obtain ⟨b, hb1, hb2⟩ := List.mem_map.mp hk2
  exact absurd (keyMem_iff.mpr ⟨b, hb1, hb2⟩) (by simp [hpred])

lemma keyMem_upsert_row_self (store : List Row) (r : Row) :
    keyMem (rowKey r) (upsert_row store r) = true := by
  unfold upsert_row
  by_cases h : keyMem (rowKey r) store = true
  · rw [if_pos h]
    rw [keyMem_iff] at h ⊢
    obtain ⟨b, hb, hbk⟩ := h
    refine ⟨if rowKey b = rowKey r then r else b, List.mem_map_of_mem _ hb, ?_⟩
    rw [if_pos hbk]
  · rw [if_neg h]
    exact keyMem_iff.mpr ⟨r, by simp, rfl⟩

lemma fixed_upsert_row_self (store : List Row) (r : Row) :
    ∀ s ∈ upsert_row store r, rowKey s = rowKey r → s = r := by
  unfold upsert_row
  by_cases h : keyMem (rowKey r) store = true
  · rw [if_pos h]
    intro s hs hks
    obtain ⟨b, hb, rfl⟩ := List.mem_map.mp hs
    by_cases hbk : rowKey b = rowKey r
    · rw [if_pos hbk]
    · rw [if_neg hbk] at hks
      exact absurd hks hbk
  · rw [if_neg h]
    intro s hs hks
    rcases List.mem_append.mp hs with hs | hs
    · exact absurd (keyMem_iff.mpr ⟨s, hs, hks⟩) (by simp_all)
    · simpa using hs

lemma upsert_row_preserves {store : List Row} {r : Row} {k : List Char × List Char}
    {v : Row} (hk : k ≠ rowKey r) (hmem : keyMem k store = true)
    (hfx : ∀ s ∈ store, rowKey s = k → s = v) :
    keyMem k (upsert_row store r) = true ∧
      ∀ s ∈ upsert_row store r, rowKey s = k → s = v := by
  unfold upsert_row
  by_cases h : keyMem (rowKey r) store = true
  · rw [if_pos h]
    constructor
    · rw [keyMem_iff] at hmem ⊢
      obtain ⟨b, hb, hbk⟩ := hmem
      refine ⟨if rowKey b = rowKey r then r else b, List.mem_map_of_mem _ hb, ?_⟩
      have hbr : ¬ rowKey b = rowKey r := by
        intro hh
        exact hk (hbk ▸ hh)
      rw [if_neg hbr]
      exact hbk
    · intro s hs hks
      obtain ⟨b, hb, rfl⟩ := List.mem_map.mp hs
      by_cases hbr : rowKey b = rowKey r
      · rw [if_pos hbr] at hks
        exact absurd hks.symm hk
      · rw [if_neg hbr] at hks ⊢
        exact hfx b hb hks
  · rw [if_neg h]
    constructor
    · rw [keyMem_iff] at hmem ⊢
      obtain ⟨b, hb, hbk⟩ := hmem
      exact ⟨b, List.mem_append_left _ hb, hbk⟩
    · intro s hs hks
      rcases List.mem_append.mp hs with hs | hs
      · exact hfx s hs hks
      · have hsr : s = r := by simpa using hs
        subst hsr
        exact absurd hks.symm hk

lemma upsert_batch_preserves {cs : List Row} {k : List Char × List Char} {v : Row} :
    ∀ {store : List Row}, k ∉ cs.map rowKey → keyMem k store = true →
      (∀ s ∈ store, rowKey s = k → s = v) →
      keyMem k (upsert_batch store cs) = true ∧
        ∀ s ∈ upsert_batch store cs, rowKey s = k → s = v := by
  induction cs with
  | nil => exact fun hk hmem hfx => ⟨hmem, hfx⟩
  | cons c cs ih =>
    intro store hk hmem hfx
    simp only [List.map_cons, List.mem_cons, not_or] at hk
    obtain ⟨hk1, hk2⟩ := hk
    have step := upsert_row_preserves (r := c) hk1 hmem hfx
    exact ih hk2 step.1 step.2

lemma upsert_batch_fixes {batch : List Row} (hnd : (batch.map rowKey).Nodup) :
    ∀ {store : List Row}, ∀ b ∈ batch,
      keyMem (rowKey b) (upsert_batch store batch) = true ∧
      ∀ s ∈ upsert_batch store batch, rowKey s = rowKey b → s = b := by
  induction batch with
  | nil => intro store b hb; exact absurd hb (by simp)
  | cons c cs ih =>
    intro store b hb
    simp only [List.map_cons, List.nodup_cons] at hnd
    obtain ⟨hc, hnd2⟩ := hnd
    rcases List.mem_cons.mp hb with rfl | hb2
    · show keyMem (rowKey b) (upsert_batch (upsert_row store b) cs) = true ∧
        ∀ s ∈ upsert_batch (upsert_row store b) cs, rowKey s = rowKey b → s = b
      exact upsert_batch_preserves hc (keyMem_upsert_row_self store b)
        (fixed_upsert_row_self store b)
    · exact ih hnd2 b hb2

lemma upsert_row_fixed {store : List Row} {r : Row}
    (h1 : keyMem (rowKey r) store = true)
    (h2 : ∀ s ∈ store, rowKey s = rowKey r → s = r) : upsert_row store r = store := by
  unfold upsert_row
  rw [if_pos h1]
  have hcongr : store.map (fun s => if rowKey s = rowKey r then r else s) =
      store.map id := by
    apply List.map_congr_left
    intro s hs
    by_cases hk : rowKey s = rowKey r
    · rw [if_pos hk]
      exact (h2 s hs hk).symm
    · rw [if_neg hk]
      rfl
  rw [hcongr, List.map_id]

lemma upsert_batch_fixed {batch : List Row} :
    ∀ {store : List Row},
      (∀ b ∈ batch, keyMem (rowKey b) store = true ∧
        ∀ s ∈ store, rowKey s = rowKey b → s = b) →
      upsert_batch store batch = store := by
  induction batch with
  | nil => exact fun _ => rfl
  | cons c cs ih =>
    intro store hfix
    have h1 := hfix c (by simp)
    have hrow : upsert_row store c = store := upsert_row_fixed h1.1 h1.2
    show upsert_batch (upsert_row store c) cs = store
    rw [hrow]
    exact ih (fun b hb => hfix b (by simp [hb]))

lemma upsert_batch_idem {store batch : List Row} (hnd : (batch.map rowKey).Nodup) :
    upsert_batch (upsert_batch store batch) batch = upsert_batch store batch :=
  upsert_batch_fixed (fun b hb => upsert_batch_fixes hnd b hb)

lemma upsert_row_nodup {store : List Row} {r : Row}
    (h : (store.map rowKey).Nodup) : ((upsert_row store r).map rowKey).Nodup := by
  unfold upsert_row
  by_cases hk : keyMem (rowKey r) store = true
  · rw [if_pos hk]
    have hkeys : (store.map (fun s => if rowKey s = rowKey r then r else s)).map rowKey =
        store.map rowKey := by
      rw [List.map_map]
      apply List.map_congr_left
      intro s _
      by_cases hq : rowKey s = rowKey r
      · simp [hq]
      · simp [hq]
    rw [hkeys]
    exact h
  · rw [if_neg hk]
    rw [List.map_append, List.nodup_append]
    refine ⟨h, by simp, ?_⟩
    intro k hk1 hk2
    obtain ⟨b, hb, rfl⟩ := List.mem_map.mp hk1
    have hkr : rowKey b = rowKey r := by simpa using hk2
    exact absurd (keyMem_iff.mpr ⟨b, hb, hkr⟩) (by simp_all)

lemma upsert_batch_nodup {batch : List Row} :
    ∀ {store : List Row}, (store.map rowKey).Nodup →
      ((upsert_batch store batch).map rowKey).Nodup := by
  induction batch with
  | nil => exact fun h => h
  | cons c cs ih =>
    intro store h
    exact ih (upsert_row_nodup h)

/-- C3: loading the same batch twice with `replace = true` leaves the store
identical (row count and content) to loading it once; `replace` deletes every
stored row whose key occurs in the batch before inserting, so the store's
(trade_date, ticker) uniqueness is preserved; and the `ON CONFLICT` upsert is
likewise idempotent and never creates a duplicate key. -/
theorem save_replace_round_trip (store batch : List Row) :
    (save_snapshot_replace (save_snapshot_replace store batch) batch =
      save_snapshot_replace store batch) ∧
    ((store.map rowKey).Nodup → (batch.map rowKey).Nodup →
      ((save_snapshot_replace store batch).map rowKey).Nodup) ∧
    ((batch.map rowKey).Nodup →
      upsert_batch (upsert_batch store batch) batch = upsert_batch store batch) ∧
    ((store.map rowKey).Nodup →
      ((upsert_batch store batch).map rowKey).Nodup) :=
  ⟨save_replace_idem store batch,
   fun hs hb => save_replace_nodup hs hb,
   fun hb => upsert_batch_idem hb,
   fun hs => upsert_batch_nodup hs⟩

/-- Witness for C3 on the empty store and a one-row batch. -/
theorem save_replace_round_trip_witness :
    (([] : List Row).map rowKey).Nodup ∧ ([c3Row].map rowKey).Nodup ∧
    ((save_snapshot_replace [] [c3Row]).map rowKey).Nodup ∧
    upsert_batch (upsert_batch [] [c3Row]) [c3Row] = upsert_batch [] [c3Row] :=
  ⟨by decide, by decide,
   (save_replace_round_trip [] [c3Row]).2.1 (by decide) (by decide),
   (save_replace_round_trip [] [c3Row]).2.2.1 (by decide)⟩

lemma validate_pk_ok {rows : List Row} (h : (rows.map rowKey).Nodup) :
    validate_pk rows = .ok () := by
  unfold validate_pk
  rw [if_pos h]

lemma validate_pk_err {rows : List Row} (h : ¬ (rows.map rowKey).Nodup) :
    validate_pk rows = .error .duplicateKey := by
  unfold validate_pk
  rw [if_neg h]

lemma daily_validate_ticker_ok {rows : List Row}
    (h : rows.all (fun r => endsWithSuffix r.ticker) = true) :
    daily_validate_ticker rows = .ok () := by
  unfold daily_validate_ticker
  rw [if_pos h]

lemma daily_validate_ticker_cases (rows : List Row) :
    daily_validate_ticker rows = .ok () ∨
      daily_validate_ticker rows = .error .invalidTicker := by
  unfold daily_validate_ticker
  by_cases h : rows.all (fun r => endsWithSuffix r.ticker) = true
  · rw [if_pos h]; exact Or.inl rfl
  · rw [if_neg h]; exact Or.inr rfl

lemma validate_trade_date_err_shape {rows : List Row} {fname : List Char} {e : CleanErr}
    (h : validate_trade_date rows fname = .error e) : isDateErr e = true := by
  unfold validate_trade_date at h
  split at h
  · simp at h
  · split at h
    · split at h
      · simp at h
      · simp only [Except.error.injEq] at h
        rw [← h]
        rfl
    · simp only [Except.error.injEq] at h
      rw [← h]
      rfl

lemma validate_trade_date_err_of_mismatch {rows : List Row} {fname d : List Char}
    (hp : parse_trade_date_from_name fname = some d)
    (hbad : ∃ r ∈ rows, r.trade_date ≠ d) :
    ∃ e, validate_trade_date rows fname = .error e ∧ isDateErr e = true := by
  unfold validate_trade_date
  rw [hp]
  rcases hdd : (rows.map (fun r => r.trade_date)).dedup with _ | ⟨u, us⟩
  · rw [hdd]
    exact ⟨.multipleDates, rfl, rfl⟩
  · rcases us with _ | ⟨v, more⟩
    · obtain ⟨r, hr, hrd⟩ := hbad
      have hmem : r.trade_date ∈ (rows.map (fun r => r.trade_date)).dedup := by
        rw [List.mem_dedup]
        exact List.mem_map_of_mem _ hr
      rw [hdd] at hmem
      have hru : r.trade_date = u := by simpa using hmem
      have hud : ¬ u = d := by
        intro hh
        exact hrd (hru.trans hh)
      rw [hdd]
      refine ⟨.dateMismatch d u, ?_, rfl⟩
      simp [hud]
    · rw [hdd]
      exact ⟨.multipleDates, rfl, rfl⟩

lemma daily_process_files_error {files : List RawFileDaily} :
    ∀ {store : List Row}, (∃ f ∈ files, ∃ e, daily_clean_file f = .error e) →
      ∃ e, daily_process_files files store = .error e := by
  induction files with
  | nil =>
    intro store h
    obtain ⟨f, hf, -⟩ := h
    exact absurd hf (by simp)
  | cons f fs ih =>
    intro store h
    rcases hcf : daily_clean_file f with e | rows
    · exact ⟨e, by simp only [daily_process_files]; rw [hcf]⟩
    · rcases h with ⟨g, hg, e2, hge⟩
      rcases List.mem_cons.mp hg with rfl | hg2
      · rw [hcf] at hge
        simp at hge
      · obtain ⟨e3, h3⟩ := ih ⟨g, hg2, e2, hge⟩
        refine ⟨e3, ?_⟩
        simp only [daily_process_files]
        rw [hcf]
        exact h3

lemma daily_load_files_unchanged {store : List Row} {files : List RawFileDaily}
    {f : RawFileDaily} (hf : f ∈ files) {e : CleanErr}
    (he : daily_clean_file f = .error e) : daily_load_files store files = store := by
  obtain ⟨e2, h2⟩ := daily_process_files_error ⟨f, hf, e, he⟩
  unfold daily_load_files
  rw [h2]

lemma daily_clean_file_cases (f : RawFileDaily) :
    (∃ out, daily_clean_file f = .ok out) ∨
    daily_clean_file f = .error .emptyFile ∨
    (daily_clean_file f = .error .duplicateKey ∧
      ¬ ((sortRows (f.rows.map daily_clean_row)).map rowKey).Nodup) ∨
    daily_clean_file f = .error .invalidTicker ∨
    (∃ e, daily_clean_file f = .error e ∧ isDateErr e = true) := by
  simp only [daily_clean_file]
  by_cases hemp : f.rows.isEmpty = true
  · rw [if_pos hemp]
    right; left; rfl
  · rw [if_neg hemp]
    by_cases hnd : ((sortRows (f.rows.map daily_clean_row)).map rowKey).Nodup
    · rw [validate_pk_ok hnd]
      rcases daily_validate_ticker_cases (sortRows (f.rows.map daily_clean_row)) with
        ht | ht
      · rw [ht]
        rcases hd : validate_trade_date (sortRows (f.rows.map daily_clean_row)) f.fname
          with e | u
        · right; right; right; right
          exact ⟨e, rfl, validate_trade_date_err_shape hd⟩
        · left
          exact ⟨sortRows (f.rows.map daily_clean_row), rfl⟩
      · rw [ht]
        right; right; right; left; rfl
    · rw [validate_pk_err hnd]
      right; right; left
      exact ⟨rfl, hnd⟩

lemma daily_clean_file_ok_shape {f : RawFileDaily} {out : List Row}
    (h : daily_clean_file f = .ok out) :
    out = sortRows (f.rows.map daily_clean_row) ∧ (out.map rowKey).Nodup := by
  simp only [daily_clean_file] at h
  by_cases hemp : f.rows.isEmpty = true
  · rw [if_pos hemp] at h
    simp at h
  · rw [if_neg hemp] at h
    by_cases hnd : ((sortRows (f.rows.map daily_clean_row)).map rowKey).Nodup
    · rw [validate_pk_ok hnd] at h
      rcases daily_validate_ticker_cases (sortRows (f.rows.map daily_clean_row)) with
        ht | ht
      · rw [ht] at h
        rcases hd : validate_trade_date (sortRows (f.rows.map daily_clean_row)) f.fname
          with e | u
        · rw [hd] at h
          simp at h
        · rw [hd] at h
          simp only [Except.ok.injEq] at h
          exact ⟨h.symm, h ▸ hnd⟩
      · rw [ht] at h
        simp at h
    · rw [validate_pk_err hnd] at h
      simp at h

/-- C6: a daily batch whose cleaned rows contain a repeated
`(trade_date, ticker)` key is rejected by `clean_file` with the duplicate-key
error and yields no output batch; a batch with all-distinct keys never raises
that error; and a successful clean returns exactly as many rows as the raw
file had — duplicates are never silently dropped. -/
theorem daily_clean_file_duplicate_key (f : RawFileDaily) :
    (¬ ((f.rows.map daily_clean_row).map rowKey).Nodup →
      daily_clean_file f = .error .duplicateKey) ∧
    (((f.rows.map daily_clean_row).map rowKey).Nodup →
      daily_clean_file f ≠ .error .duplicateKey) ∧
    (∀ out, daily_clean_file f = .ok out →
      out.length = f.rows.length ∧ (out.map rowKey).Nodup) := by
  have hperm : ((sortRows (f.rows.map daily_clean_row)).map rowKey).Perm
      ((f.rows.map daily_clean_row).map rowKey) :=
    (List.perm_insertionSort rowLe (f.rows.map daily_clean_row)).map rowKey
  refine ⟨?_, ?_, ?_⟩
  · intro h
    have hne : ¬ f.rows.isEmpty = true := by
      intro hnil
      rw [List.isEmpty_eq_true] at hnil
      apply h
      rw [hnil]
      simp
    simp only [daily_clean_file]
    rw [if_neg hne, validate_pk_err (fun hh => h (hperm.nodup_iff.mp hh))]
  · intro h heq
    rcases daily_clean_file_cases f with ⟨out, ho⟩ | ho | ⟨ho, hnd⟩ | ho | ⟨e, ho, hde⟩ <;>
      rw [ho] at heq
    · simp at heq
    · simp at heq
    · exact hnd (hperm.nodup_iff.mpr h)
    · simp at heq
    · simp only [Except.error.injEq] at heq
      rw [heq] at hde
      simp [isDateErr] at hde
  · intro out hout
    obtain ⟨hsh, hnd⟩ := daily_clean_file_ok_shape hout
    constructor
    · rw [hsh]
      unfold sortRows
      rw [List.length_insertionSort, List.length_map]
    · exact hnd

/-- Witness for C6: a file with a repeated key is rejected with the
duplicate-key error. -/
theorem daily_clean_file_duplicate_key_witness :
    ¬ ((c6File.rows.map daily_clean_row).map rowKey).Nodup ∧
    daily_clean_file c6File = .error .duplicateKey :=
  ⟨by decide, (daily_clean_file_duplicate_key c6File).1 (by decide)⟩

/-- C5: `load_files` wraps the whole ordered sequence of per-file
clean-and-upsert operations in one transaction — if any file of the load fails
cleaning/validation, the rollback leaves the store exactly as it was before
the load, dropping even the rows of files that had already been processed
successfully. -/
theorem daily_load_files_rollback (store : List Row) (files : List RawFileDaily)
    (f : RawFileDaily) (hf : f ∈ files) (e : CleanErr)
    (he : daily_clean_file f = .error e) : daily_load_files store files = store :=
  daily_load_files_unchanged hf he

/-- Witness for C5: a two-file load whose second file is malformed leaves the
store unchanged. -/
theorem daily_load_files_rollback_witness :
    c5BadFile ∈ [c5GoodFile, c5BadFile] ∧
    daily_clean_file c5BadFile = .error .emptyFile ∧
    daily_load_files [c3Row] [c5GoodFile, c5BadFile] = [c3Row] :=
  ⟨by simp, by rfl,
    daily_load_files_rollback [c3Row] [c5GoodFile, c5BadFile] c5BadFile
      (by simp) .emptyFile (by rfl)⟩

/-- C7: for a file whose name encodes a trading date, if some row carries a
different date (or several distinct dates occur), `clean_file` fails with a
date-consistency error (`multipleDates` or `dateMismatch`), and a multi-file
load containing that file persists nothing — the store is unchanged. -/
theorem daily_clean_file_date_consistency (f : RawFileDaily) (d : List Char)
    (hp : parse_trade_date_from_name f.fname = some d)
    (hbad : ∃ r ∈ f.rows, r.trade_date ≠ d)
    (hnd : ((sortRows (f.rows.map daily_clean_row)).map rowKey).Nodup)
    (htk : (sortRows (f.rows.map daily_clean_row)).all
      (fun r => endsWithSuffix r.ticker) = true) :
    (∃ e, daily_clean_file f = .error e ∧ isDateErr e = true) ∧
    ∀ (store : List Row) (files : List RawFileDaily), f ∈ files →
      daily_load_files store files = store := by
  obtain ⟨r, hr, hrd⟩ := hbad
  have hbad2 : ∃ s ∈ sortRows (f.rows.map daily_clean_row), s.trade_date ≠ d := by
    refine ⟨daily_clean_row r, ?_, hrd⟩
    unfold sortRows
    rw [List.mem_insertionSort]
    exact List.mem_map_of_mem _ hr
  obtain ⟨e, he, hde⟩ := validate_trade_date_err_of_mismatch hp hbad2
  have hne : ¬ f.rows.isEmpty = true := by
    intro hnil
    rw [List.isEmpty_eq_true] at hnil
    rw [hnil] at hr
    simp at hr
  have hclean : daily_clean_file f = .error e := by
    simp only [daily_clean_file]
    rw [if_neg hne, validate_pk_ok hnd, daily_validate_ticker_ok htk, he]
  exact ⟨⟨e, hclean, hde⟩,
    fun store files hf => daily_load_files_unchanged hf hclean⟩

/-- Witness for C7 on the mislabeled file: all hypotheses hold, the clean
fails with a date-consistency error, and loading the file persists nothing. -/
theorem daily_clean_file_date_consistency_witness :
    parse_trade_date_from_name c7File.fname =
      some ['2','0','2','4','-','0','1','-','0','2'] ∧
    (∃ e, daily_clean_file c7File = .error e ∧ isDateErr e = true) ∧
    daily_load_files [] [c7File] = [] :=
  ⟨by decide,
   (daily_clean_file_date_consistency c7File ['2','0','2','4','-','0','1','-','0','2']
     (by decide) (by decide) (by decide) (by decide)).1,
   (daily_clean_file_date_consistency c7File ['2','0','2','4','-','0','1','-','0','2']
     (by decide) (by decide) (by decide) (by decide)).2 [] [c7File] (by simp)⟩

/-- C9: the generated create statement inlines the `PRIMARY KEY` qualifier on
the key column when the primary key has exactly one column, and emits the
primary key as a trailing table-level constraint when it has more than one
column. -/
theorem duckdb_create_sql_pk_placement (t : TableSchema) :
    (t.primary_key.length = 1 → duckdb_create_sql t = create_sql_inline_pk t) ∧
    (1 < t.primary_key.length → duckdb_create_sql t = create_sql_table_pk t) := by
  constructor
  · intro h
    simp [duckdb_create_sql, create_sql_inline_pk, h]
  · intro h
    have h1 : t.primary_key.length ≠ 1 := by omega
    simp [duckdb_create_sql, create_sql_table_pk, h, h1]

/-- Witness for C9 at the single-key `trade_execution` schema and the
two-column-key `daily_market_snapshot` schema. -/
theorem duckdb_create_sql_pk_placement_witness :
    TRADE_EXECUTION.primary_key.length = 1 ∧
    duckdb_create_sql TRADE_EXECUTION = create_sql_inline_pk TRADE_EXECUTION ∧
    1 < DAILY_MARKET_SNAPSHOT.primary_key.length ∧
    duckdb_create_sql DAILY_MARKET_SNAPSHOT =
      create_sql_table_pk DAILY_MARKET_SNAPSHOT :=
  ⟨by decide, (duckdb_create_sql_pk_placement TRADE_EXECUTION).1 (by decide),
   by decide, (duckdb_create_sql_pk_placement DAILY_MARKET_SNAPSHOT).2 (by decide)⟩

lemma lexLtb_trans : ∀ x y z : List Char,
    lexLtb x y = true → lexLtb y z = true → lexLtb x z = true := by
  intro x
  induction x with
  | nil =>
    intro y z h1 h2
    cases z with
    | nil =>
      cases y with
      | nil => simp [lexLtb] at h1
      | cons b bs => simp [lexLtb] at h2
    | cons c cs => simp [lexLtb]
  | cons a as ih =>
    intro y z h1 h2
    cases y with
    | nil => simp [lexLtb] at h1
    | cons b bs =>
      cases z with
      | nil => simp [lexLtb] at h2
      | cons c cs =>
        simp only [lexLtb] at h1 h2 ⊢
        by_cases hab : a < b
        · by_cases hbc : b < c
          · rw [if_pos (lt_trans hab hbc)]
          · rw [if_neg hbc] at h2
            by_cases hcb : c < b
            · rw [if_pos hcb] at h2
              exact absurd h2 (by simp)
            · have hbce : b = c := le_antisymm (le_of_not_lt hcb) (le_of_not_lt hbc)
              subst hbce
              rw [if_pos hab]
        · rw [if_neg hab] at h1
          by_cases hba : b < a
          · rw [if_pos hba] at h1
            exact absurd h1 (by simp)
          · have hab2 : a = b := le_antisymm (le_of_not_lt hba) (le_of_not_lt hab)
            subst hab2
            rw [if_neg (lt_irrefl a)] at h1
            by_cases hac : a < c
            · rw [if_pos hac]
            · rw [if_neg hac] at h2 ⊢
              by_cases hca : c < a
              · rw [if_pos hca] at h2
                exact absurd h2 (by simp)
              · rw [if_neg hca] at h2 ⊢
                exact ih bs cs h1 h2

lemma lexLeb_trans : ∀ x y z : List Char,
    lexLeb x y = true → lexLeb y z = true → lexLeb x z = true := by
  intro x
  induction x with
  | nil => intro y z h1 h2; rfl
  | cons a as ih =>
    intro y z h1 h2
    cases y with
    | nil => simp [lexLeb] at h1
    | cons b bs =>
      cases z with
      | nil => simp [lexLeb] at h2
      | cons c cs =>
        simp only [lexLeb] at h1 h2 ⊢
        by_cases hab : a < b
        · by_cases hbc : b < c
          · rw [if_pos (lt_trans hab hbc)]
          · rw [if_neg hbc] at h2
            by_cases hcb : c < b
            · rw [if_pos hcb] at h2
              exact absurd h2 (by simp)
            · have hbce : b = c := le_antisymm (le_of_not_lt hcb) (le_of_not_lt hbc)
              subst hbce
              rw [if_pos hab]
        · rw [if_neg hab] at h1
          by_cases hba : b < a
          · rw [if_pos hba] at h1
            exact absurd h1 (by simp)
          · have hab2 : a = b := le_antisymm (le_of_not_lt hba) (le_of_not_lt hab)
            subst hab2
            rw [if_neg (lt_irrefl a)] at h1
            by_cases hac : a < c
            · rw [if_pos hac]
            · rw [if_neg hac] at h2 ⊢
              by_cases hca : c < a
              · rw [if_pos hca] at h2
                exact absurd h2 (by simp)
              · rw [if_neg hca] at h2 ⊢
                exact ih bs cs h1 h2

lemma lexLtb_trichotomy : ∀ x y : List Char,
    lexLtb x y = true ∨ x = y ∨ lexLtb y x = true := by
  intro x
  induction x with
  | nil =>
    intro y
    cases y with
    | nil => exact Or.inr (Or.inl rfl)
    | cons b bs => exact Or.inl rfl
  | cons a as ih =>
    intro y
    cases y with
    | nil => exact Or.inr (Or.inr rfl)
    | cons b bs =>
      rcases lt_trichotomy a b with h | h | h
      · exact Or.inl (by simp only [lexLtb]; rw [if_pos h])
      · subst h
        rcases ih bs with h2 | h2 | h2
        · exact Or.inl (by simp only [lexLtb]; rw [if_neg (lt_irrefl a), if_neg (lt_irrefl a)]; exact h2)
        · exact Or.inr (Or.inl (by rw [h2]))
        · exact Or.inr (Or.inr (by simp only [lexLtb]; rw [if_neg (lt_irrefl a), if_neg (lt_irrefl a)]; exact h2))
      · exact Or.inr (Or.inr (by simp only [lexLtb]; rw [if_pos h]))

lemma lexLeb_total : ∀ x y : List Char, lexLeb x y = true ∨ lexLeb y x = true := by
  intro x
  induction x with
  | nil => intro y; exact Or.inl rfl
  | cons a as ih =>
    intro y
    cases y with
    | nil => exact Or.inr rfl
    | cons b bs =>
      rcases lt_trichotomy a b with h | h | h
      · exact Or.inl (by simp only [lexLeb]; rw [if_pos h])
      · subst h
        rcases ih bs with h2 | h2
        · exact Or.inl (by simp only [lexLeb]; rw [if_neg (lt_irrefl a), if_neg (lt_irrefl a)]; exact h2)
        · exact Or.inr (by simp only [lexLeb]; rw [if_neg (lt_irrefl a), if_neg (lt_irrefl a)]; exact h2)
      · exact Or.inr (by simp only [lexLeb]; rw [if_pos h])

lemma rowLe_total : ∀ x y : Row, rowLe x y ∨ rowLe y x := by
  intro x y
  unfold rowLe rowLeb
  rcases lexLtb_trichotomy x.trade_date y.trade_date with h | h | h
  · left; simp [h]
  · rcases lexLeb_total x.ticker y.ticker with ht | ht
    · left; simp [h, ht]
    · right; simp [h, ht]
  · right; simp [h]

lemma rowLe_trans : ∀ x y z : Row, rowLe x y → rowLe y z → rowLe x z := by
  intro x y z h1 h2
  unfold rowLe rowLeb at h1 h2 ⊢
  simp only [Bool.or_eq_true, Bool.and_eq_true, decide_eq_true_eq] at h1 h2 ⊢
  rcases h1 with h1 | ⟨h1e, h1t⟩
  · rcases h2 with h2 | ⟨h2e, h2t⟩
    · exact Or.inl (lexLtb_trans _ _ _ h1 h2)
    · exact Or.inl (by rw [← h2e]; exact h1)
  · rcases h2 with h2 | ⟨h2e, h2t⟩
    · exact Or.inl (by rw [h1e]; exact h2)
    · exact Or.inr ⟨h1e.trans h2e, lexLeb_trans _ _ _ h1t h2t⟩

instance : IsTotal Row rowLe := ⟨rowLe_total⟩

instance : IsTrans Row rowLe := ⟨fun a b c => rowLe_trans a b c⟩

lemma hist_validate_ticker_ok {rows : List Row}
    (h : rows.all (fun r => hist_valid_ticker r.ticker) = true) :
    hist_validate_ticker rows = .ok () := by
  unfold hist_validate_ticker
  rw [if_pos h]

lemma hist_validate_ticker_err {rows : List Row}
    (h : ¬ rows.all (fun r => hist_valid_ticker r.ticker) = true) :
    hist_validate_ticker rows = .error .invalidTicker := by
  unfold hist_validate_ticker
  rw [if_neg h]

lemma hist_clean_row_project (r : RawRowHist) :
    hist_clean_row (rowToRawHist (hist_clean_row r)) = hist_clean_row r := by
  have key : hist_normalize_ticker (hist_normalize_ticker r.ticker) =
      hist_normalize_ticker r.ticker := hist_normalize_idem r.ticker
  simp only [hist_clean_row, rowToRawHist, key]

lemma hist_clean_file_ok_shape {rows : List RawRowHist} {out : List Row}
    (h : hist_clean_file rows = .ok out) :
    out = sortRows (rows.map hist_clean_row) ∧ (out.map rowKey).Nodup ∧
      out.all (fun r => hist_valid_ticker r.ticker) = true ∧ rows ≠ [] := by
  simp only [hist_clean_file] at h
  by_cases hemp : rows.isEmpty = true
  · rw [if_pos hemp] at h
    simp at h
  · rw [if_neg hemp] at h
    by_cases hnd : ((sortRows (rows.map hist_clean_row)).map rowKey).Nodup
    · rw [validate_pk_ok hnd] at h
      by_cases htk : (sortRows (rows.map hist_clean_row)).all
          (fun r => hist_valid_ticker r.ticker) = true
      · rw [hist_validate_ticker_ok htk] at h
        simp only [Except.ok.injEq] at h
        refine ⟨h.symm, h ▸ hnd, h ▸ htk, ?_⟩
        intro hz
        rw [List.isEmpty_eq_true] at hemp
        exact hemp hz
      · rw [hist_validate_ticker_err htk] at h
        simp at h
    · rw [validate_pk_err hnd] at h
      simp at h

/-- C4 (amended): the history loader's `clean_file` is idempotent — feeding a
canonical batch it produced back through the cleaner returns that batch
unchanged; the daily loader's cleaner is not idempotent, because its
unguarded `normalize_ticker` re-appends the exchange suffix (see the
counterexample). -/
theorem hist_clean_file_idempotent (rows : List RawRowHist) (out : List Row)
    (h : hist_clean_file rows = .ok out) :
    hist_clean_file (out.map rowToRawHist) = .ok out := by
  obtain ⟨hsh, hnd, htk, hne⟩ := hist_clean_file_ok_shape h
  have hmap : (out.map rowToRawHist).map hist_clean_row = out := by
    rw [List.map_map]
    have hfix : ∀ s ∈ out, (hist_clean_row ∘ rowToRawHist) s = s := by
      intro s hs
      rw [hsh] at hs
      unfold sortRows at hs
      rw [List.mem_insertionSort] at hs
      obtain ⟨raw, hraw, hmem⟩ := List.mem_map.mp hs
      rw [← hmem]
      exact hist_clean_row_project raw
    rw [List.map_congr_left hfix]
    simp
  have hsorted : List.Sorted rowLe out := by
    rw [hsh]
    exact List.sorted_insertionSort rowLe _
  have hsort2 : sortRows ((out.map rowToRawHist).map hist_clean_row) = out := by
    rw [hmap]
    exact hsorted.insertionSort_eq
  have hone : ¬ out = [] := by
    intro hz
    rw [hz] at hsh
    have hlen := congrArg List.length hsh
    unfold sortRows at hlen
    rw [List.length_insertionSort, List.length_map] at hlen
    simp at hlen
    exact hne (List.length_eq_zero.mp hlen.symm)
  have hne2 : ¬ (out.map rowToRawHist).isEmpty = true := by
    rw [List.isEmpty_eq_true]
    intro hz
    exact hone (List.map_eq_nil_iff.mp hz)
  simp only [hist_clean_file]
  rw [if_neg hne2, hsort2, validate_pk_ok hnd, hist_validate_ticker_ok htk]

/-- Witness for C4 (amended): a concrete one-row history batch cleans to
`[c4Out]`, and re-cleaning that output returns it unchanged. -/
theorem hist_clean_file_idempotent_witness :
    hist_clean_file [c4Raw] = .ok [c4Out] ∧
    hist_clean_file ([c4Out].map rowToRawHist) = .ok [c4Out] := by
  have hpct : hist_limit_pct ['6','0','0','0','0','0','.','S','H'] false = 10 := by
    decide
  have htick : hist_normalize_ticker ['6','0','0','0','0','0'] =
      ['6','0','0','0','0','0','.','S','H'] := by decide
  have hst : containsST ['A'] = false := by decide
  have hrow : hist_clean_row c4Raw = c4Out := by
    simp only [hist_clean_row, c4Raw, c4Out, htick, hst, hpct]
    norm_num [Row.mk.injEq, round2, roundHalfEven, Rat.floor_def',
      decide_eq_true_eq, decide_eq_false_iff_not]
  have hmap : [c4Raw].map hist_clean_row = [c4Out] := by
    simp only [List.map_cons, List.map_nil, hrow]
  have h1 : hist_clean_file [c4Raw] = .ok [c4Out] := by
    simp only [hist_clean_file]
    rw [if_neg (by decide), hmap]
    rw [show sortRows [c4Out] = [c4Out] from rfl]
    rw [validate_pk_ok (by decide), hist_validate_ticker_ok (by decide)]
  exact ⟨h1, hist_clean_file_idempotent [c4Raw] [c4Out] h1⟩

/-- C4 counterexample: the daily loader re-suffixes an already-suffixed
ticker, so re-cleaning its own canonical output does not pass the ticker
through unchanged — the row-level daily cleaner is not idempotent. -/
theorem c4_counterexample :
    (daily_clean_row c1WitnessRow).ticker = ['6','0','0','0','0','0','.','S','H'] ∧
    (daily_clean_row (rowToRawDaily (daily_clean_row c1WitnessRow))).ticker =
      ['6','0','0','0','0','0','.','S','H','.','S','H'] ∧
    daily_clean_row (rowToRawDaily (daily_clean_row c1WitnessRow)) ≠
      daily_clean_row c1WitnessRow :=
  ⟨by decide, by decide, fun h => absurd (congrArg Row.ticker h) (by decide)⟩
